import Mathlib

/-!
Verification of the Kademlia node core (identity and distance, routing table,
closest-neighbors selection, message codec, waiting list, async network send,
message executors and handlers) against its natural-language specification.

The Rust sources are shallowly embedded: structs become structures, byte
vectors become `List Nat` (each element a byte value), machine integers become
`Nat`/`Int` with explicit bounds where overflow matters, mutation becomes
explicit state passing, and fallible operations return `Option`.
-/

namespace Kademlia

/-- `BITS_IN_BYTE` from src/id.rs. -/
def BITS_IN_BYTE : Nat := 8

/-- `Id` from src/id.rs: a byte vector together with its bit length.
`id_length_in_bits` is set to `8 * length` by `Id.new`. -/
structure Id where
  id : List Nat
  id_length_in_bits : Nat
deriving DecidableEq, Repr

/-- `Id::new` from src/id.rs. -/
def Id.new (bytes : List Nat) : Id :=
  { id := bytes, id_length_in_bits := bytes.length * BITS_IN_BYTE }

/-- `Id::is_bit_set` from src/id.rs: tests the bit at `position` counted from
the most significant bit of a byte (`byte & (1 << (8 - 1 - position)) > 0`).
The Rust method ignores `self`, so it is a plain function here. -/
def Id.is_bit_set (byte position : Nat) : Bool :=
  decide (byte &&& (1 <<< (BITS_IN_BYTE - 1 - position)) > 0)

/-- `Id::bit_position_set_in` from src/id.rs: the first position in `0..8`
(scanning from the MSB) whose bit is set, paired with a found flag.
The `for` loop returning the first hit is `List.find?` over `range 8`. -/
def Id.bit_position_set_in (byte : Nat) : Nat × Bool :=
  match (List.range BITS_IN_BYTE).find? (fun bit_position => Id.is_bit_set byte bit_position) with
  | some bit_position => (bit_position, true)
  | none => (0, false)

/-- The loop of `Id::differing_bit_position` from src/id.rs: walks both byte
vectors in lockstep (the Rust loop enumerates `self.id` and indexes
`other.id[index]`, which panics when `other` is shorter; that arm returns 0
here and is unreachable for same-length ids, the only case the callers use). -/
def Id.differing_bit_position_go (id_length_in_bits : Nat) :
    List Nat → List Nat → Nat → Nat
  | [], _, _ => 0
  | byte :: rest, other_byte :: other_rest, index =>
    let xor := byte ^^^ other_byte
    let position := Id.bit_position_set_in xor
    if position.2 then
      id_length_in_bits - (index * BITS_IN_BYTE + position.1) - 1
    else
      Id.differing_bit_position_go id_length_in_bits rest other_rest (index + 1)
  | _ :: _, [], _ => 0

/-- `Id::differing_bit_position` from src/id.rs. -/
def Id.differing_bit_position (self other : Id) : Nat :=
  Id.differing_bit_position_go self.id_length_in_bits self.id other.id 0

/-- Big-endian byte-vector-to-integer conversion
(`BigInt::from_bytes_be(Sign::Plus, ..)`); the result is non-negative, so `Nat`. -/
def bytesToNatBE (bytes : List Nat) : Nat :=
  bytes.foldl (fun acc byte => acc * 256 + byte) 0

/-- `Id::distance_from` from src/id.rs: byte-wise XOR read as a big-endian
non-negative integer. -/
def Id.distance_from (self other : Id) : Nat :=
  bytesToNatBE ((self.id.zip other.id).map (fun pair => pair.1 ^^^ pair.2))

/-- The spec description of the bit index: the zero-based index, counted from
the MSB of a byte, of the first set bit of `x`, phrased with `Nat.testBit`
(position `p` from the MSB of a byte is bit `7 - p` of its value). -/
def msbFirstSetBitIndex (x : Nat) : Nat :=
  (((List.range BITS_IN_BYTE).find?
    (fun p => x.testBit (BITS_IN_BYTE - 1 - p))).getD 0)

/-- `Endpoint` from src/net/endpoint.rs; the host string is kept as its byte
sequence, the port is a `u16` value. -/
structure Endpoint where
  host : List Nat
  port : Nat
deriving DecidableEq, Repr

/-- `Endpoint::new` from src/net/endpoint.rs. -/
def Endpoint.new (host : List Nat) (port : Nat) : Endpoint :=
  { host, port }

/-- `Node` from src/net/node.rs (`NodeId` is `Id`); equality compares the
whole pair, as the derived `Eq` does in Rust. -/
structure Node where
  id : Id
  endpoint : Endpoint
deriving DecidableEq, Repr

/-- `Node::new_with_id` from src/net/node.rs. -/
def Node.new_with_id (endpoint : Endpoint) (id : Id) : Node :=
  { id, endpoint }

/-- `MAX_BUCKET_CAPACITY` from src/routing/mod.rs. -/
def MAX_BUCKET_CAPACITY : Nat := 10

/-- `Table` from src/routing/mod.rs. The per-bucket `RwLock`s guard shared
mutation; a bucket is embedded as its guarded list of nodes, and the mutating
operations return the updated table. -/
structure Table where
  buckets : List (List Node)
  node_id : Id
  max_bucket_capacity : Nat
deriving DecidableEq, Repr

/-- `Table::new_with_bucket_capacity` from src/routing/mod.rs: one empty
bucket per bit of the owner id. -/
def Table.new_with_bucket_capacity (node_id : Id) (bucket_capacity : Nat) : Table :=
  { buckets := List.replicate node_id.id_length_in_bits []
    node_id
    max_bucket_capacity := bucket_capacity }

/-- `Table::new` from src/routing/mod.rs. -/
def Table.new (node_id : Id) : Table :=
  Table.new_with_bucket_capacity node_id MAX_BUCKET_CAPACITY

/-- `Table::bucket_index` from src/routing/mod.rs. The source then asserts
`bucket_index < node_id.id_length_in_bits`; the theorems below carry or prove
that bound. -/
def Table.bucket_index (t : Table) (node_id : Id) : Nat :=
  t.node_id.differing_bit_position node_id

/-- `Table::contains` from src/routing/mod.rs. Rust out-of-range
`self.buckets[i]` panics; `getD .. []` stands in for it and the theorems carry
the in-range bound. -/
def Table.contains (t : Table) (node : Node) : Nat × Bool :=
  let bucket_index := t.bucket_index node.id
  (bucket_index, decide (node ∈ t.buckets.getD bucket_index []))

/-- Writing back the bucket guarded by the write lock in src/routing/mod.rs:
the table with bucket `i` replaced by `nodes`. -/
def Table.withBucket (t : Table) (i : Nat) (nodes : List Node) : Table :=
  { t with buckets := t.buckets.set i nodes }

/-- `Table::add_internal` from src/routing/mod.rs: append to the bucket while
below capacity. -/
def Table.add_internal (t : Table) (node : Node) (bucket_index : Nat) :
    (Nat × Bool) × Table :=
  let nodes := t.buckets.getD bucket_index []
  if nodes.length < t.max_bucket_capacity then
    ((bucket_index, true), t.withBucket bucket_index (nodes ++ [node]))
  else
    ((bucket_index, false), t)

/-- `Table::add` from src/routing/mod.rs. -/
def Table.add (t : Table) (node : Node) : (Nat × Bool) × Table :=
  let result := t.contains node
  if !result.2 then
    t.add_internal node result.1
  else
    ((result.1, false), t)

/-- `Table::first_node_in` from src/routing/mod.rs (the assertion
`bucket_index < id_length_in_bits` becomes a hypothesis where needed). -/
def Table.first_node_in (t : Table) (bucket_index : Nat) : Option Node :=
  (t.buckets.getD bucket_index []).head?

/-- `Table::remove_and_add` from src/routing/mod.rs: under one bucket write
acquisition, if `to_remove` is present and `to_add` absent, remove the first
occurrence of `to_remove` (`Table::remove_internal`) and run `add_internal`.
The source two assertions (index in range, both nodes mapping to
`bucket_index`) become hypotheses of the theorems. -/
def Table.remove_and_add (t : Table) (bucket_index : Nat) (to_remove to_add : Node) : Table :=
  if (t.contains to_remove).2 && !(t.contains to_add).2 then
    let nodes := (t.buckets.getD bucket_index []).erase to_remove
    let removed := t.withBucket bucket_index nodes
    (removed.add_internal to_add bucket_index).2
  else
    t

/-- `ClosestNeighbors` from src/net/closest_neighbors.rs: a deduplicated,
size-bounded collector of nodes for a target id. The `HashSet<NodeId>` is
embedded as the list of already-seen ids, queried only through membership. -/
structure ClosestNeighbors where
  node_ids : List Id
  nodes : List Node
  target : Id
  maximum_capacity : Nat
deriving DecidableEq, Repr

/-- `ClosestNeighbors::new` from src/net/closest_neighbors.rs. -/
def ClosestNeighbors.new (maximum_capacity : Nat) (for_target : Id) : ClosestNeighbors :=
  { node_ids := [], nodes := [], target := for_target, maximum_capacity }

/-- `ClosestNeighbors::add_missing` from src/net/closest_neighbors.rs: walk the
given nodes; while below capacity insert each unseen node (set and vector
together); at capacity return `false` to stop the outer scan. -/
def ClosestNeighbors.add_missing : ClosestNeighbors → List Node → ClosestNeighbors × Bool
  | cn, [] => (cn, true)
  | cn, node :: rest =>
    if cn.nodes.length < cn.maximum_capacity then
      if node.id ∈ cn.node_ids then
        ClosestNeighbors.add_missing cn rest
      else
        ClosestNeighbors.add_missing
          { cn with node_ids := cn.node_ids ++ [node.id], nodes := cn.nodes ++ [node] } rest
    else (cn, false)

/-- The comparison of `sort_by_key(|node| node.id.distance_from(&self.target))`:
ascending XOR distance from the target. -/
def distLE (target : Id) (a b : Node) : Bool :=
  decide (a.id.distance_from target ≤ b.id.distance_from target)

/-- `ClosestNeighbors::sort_ascending_by_distance` from
src/net/closest_neighbors.rs: `sort_by_key` (a stable merge sort) on the XOR
distance from the target. -/
def ClosestNeighbors.sort_ascending_by_distance (cn : ClosestNeighbors) : ClosestNeighbors :=
  let sorted := cn.nodes.mergeSort (distLE cn.target)
  { cn with nodes := sorted }

/-- The `while` loop of `Table::all_adjacent_bucket_indices` from
src/routing/mod.rs, with an explicit fuel of `bits` iterations: each iteration
while `acc.length < bits` pushes at least one fresh index (`high` strictly
increases, `low` strictly decreases), so after `bits` iterations every index
in `0..bits` has been pushed and the loop condition stops it; fuel
`bits` therefore reproduces the unbounded loop. -/
def Table.adjacent_indices_loop (bits : Nat) : Nat → Int → Nat → List Nat → List Nat
  | 0, _, _, acc => acc
  | fuel + 1, low, high, acc =>
    if acc.length < bits then
      let acc1 := if high < bits then acc ++ [high] else acc
      let acc2 := if 0 ≤ low then acc1 ++ [low.toNat] else acc1
      Table.adjacent_indices_loop bits fuel (low - 1) (high + 1) acc2
    else acc

/-- `Table::all_adjacent_bucket_indices` from src/routing/mod.rs: starts from
`bucket_index` with `low = bucket_index - 1` and `high = bucket_index + 1`. -/
def Table.all_adjacent_bucket_indices (t : Table) (bucket_index : Nat) : List Nat :=
  Table.adjacent_indices_loop t.node_id.id_length_in_bits t.node_id.id_length_in_bits
    ((bucket_index : Int) - 1) (bucket_index + 1) [bucket_index]

/-- The bucket scan of `Table::closest_neighbors` from src/routing/mod.rs:
skip empty buckets, feed non-empty ones to `add_missing`, stop when it
reports the capacity reached. -/
def Table.closest_neighbors_scan (t : Table) : ClosestNeighbors → List Nat → ClosestNeighbors
  | cn, [] => cn
  | cn, bucket_index :: rest =>
    let nodes := t.buckets.getD bucket_index []
    if nodes.isEmpty then
      t.closest_neighbors_scan cn rest
    else
      let result := cn.add_missing nodes
      if result.2 then
        t.closest_neighbors_scan result.1 rest
      else
        result.1

/-- `Table::closest_neighbors` from src/routing/mod.rs. -/
def Table.closest_neighbors (t : Table) (id : Id) (number_of_neighbors : Nat) :
    ClosestNeighbors :=
  let bucket_index := t.node_id.differing_bit_position id
  let closest_neighbors := ClosestNeighbors.new number_of_neighbors id
  (t.closest_neighbors_scan closest_neighbors
    (t.all_adjacent_bucket_indices bucket_index)).sort_ascending_by_distance

/-- The spec words for the bucket visit order: the first `k` rounds of
`b, then b+1, b−1, b+2, b−2, …` with out-of-range indices skipped. -/
def specVisitUpTo (bits b k : Nat) : List Nat :=
  b :: (List.range k).flatMap (fun step =>
    (if b + step + 1 < bits then [b + step + 1] else [])
      ++ (if step + 1 ≤ b then [b - (step + 1)] else []))

/-- The spec bucket visit order `b, b+1, b−1, b+2, b−2, …`, skipping
out-of-range indices, over a table of `bits` buckets. -/
def specVisitOrder (bits b : Nat) : List Nat :=
  specVisitUpTo bits b bits

/-- The three collection invariants of `ClosestNeighbors`: the id set mirrors
the node vector, the node ids are pairwise distinct, and the vector stays
within capacity. -/
def ClosestNeighbors.inv (cn : ClosestNeighbors) : Prop :=
  cn.node_ids = cn.nodes.map Node.id
    ∧ (cn.nodes.map Node.id).Nodup
    ∧ cn.nodes.length ≤ cn.maximum_capacity

/-- `MessageId` from src/net/message.rs: `i64`. Theorems that depend on the
64-bit width carry explicit range bounds. -/
abbrev MessageId := Int

/-- `KeyId` from src/store/mod.rs: `type KeyId = Id`. -/
abbrev KeyId := Id

/-- `Source` from src/net/message.rs: the wire form of a node. -/
structure Source where
  node_endpoint : Endpoint
  node_id : Id
deriving DecidableEq, Repr

/-- `Source::new` from src/net/message.rs. -/
def Source.new (node : Node) : Source :=
  { node_endpoint := node.endpoint, node_id := node.id }

/-- `Source::to_node` from src/net/message.rs. -/
def Source.to_node (s : Source) : Node :=
  Node.new_with_id s.node_endpoint s.node_id

/-- `Message` from src/net/message.rs. The copy of message.rs under src/ lacks
the `FindNodeReply` variant, yet src/executor/message.rs and
src/executor/message_action.rs in the same tree match on and construct it
(`Message::find_node_reply_type`); the variant is included here as spec §3
lists it, in the spec variant order. Rust `from` field of `Ping` and `to`
field of `PingReply` get the keyword-safe names `from_node` and `to_peer`. -/
inductive Message where
  | Store (key : List Nat) (key_id : KeyId) (value : List Nat) (source : Source)
  | AddNode (source : Source)
  | FindValue (source : Source) (message_id : Option MessageId)
      (key : List Nat) (key_id : KeyId)
  | FindValueReply (message_id : MessageId) (value : Option (List Nat))
      (neighbors : Option (List Source))
  | FindNode (source : Source) (message_id : Option MessageId) (node_id : Id)
  | FindNodeReply (message_id : MessageId) (neighbors : List Source)
  | Ping (message_id : Option MessageId) (from_node : Source)
  | PingReply (message_id : MessageId) (to_peer : Source)
  | ShutDown
deriving DecidableEq, Repr

/-- `Message::find_value_reply_type` from src/net/message.rs: the source
asserts `value.is_some() || closest_neighbors.is_some()` before constructing;
the assertion failure is `none` here. -/
def Message.find_value_reply_type (message_id : MessageId) (value : Option (List Nat))
    (closest_neighbors : Option (List Source)) : Option Message :=
  if value.isSome || closest_neighbors.isSome then
    some (Message.FindValueReply message_id value closest_neighbors)
  else
    none

/-- `Message::ping_type` from src/net/message.rs. -/
def Message.ping_type (current_node : Node) : Message :=
  Message.Ping none (Source.new current_node)

/-- `Message::ping_reply_type` from src/net/message.rs. -/
def Message.ping_reply_type (current_node : Node) (message_id : MessageId) : Message :=
  Message.PingReply message_id (Source.new current_node)

/-- `Message::find_node_reply_type`, constructed by
src/executor/message_action.rs (the defining message.rs revision is not under
src/; spec §3 gives the variant fields). -/
def Message.find_node_reply_type (message_id : MessageId) (neighbors : List Source) : Message :=
  Message.FindNodeReply message_id neighbors

/-- `Message::shutdown_type` from src/net/message.rs. -/
def Message.shutdown_type : Message :=
  Message.ShutDown

/-- `Message::add_node_type` from src/net/message.rs. -/
def Message.add_node_type (source : Node) : Message :=
  Message.AddNode (Source.new source)

/-- `Message::set_message_id` from src/net/message.rs: sets the id on
`FindValue`, `FindNode` and `Ping` only; all other variants are untouched. -/
def Message.set_message_id (m : Message) (id : MessageId) : Message :=
  match m with
  | .FindValue source _ key key_id => .FindValue source (some id) key key_id
  | .FindNode source _ node_id => .FindNode source (some id) node_id
  | .Ping _ from_node => .Ping (some id) from_node
  | other => other

/-- `MessageStatus`. Modelled from the spec: src/src/executor/response.rs in
src/ is an earlier five-variant revision `{StoreDone, PingDone, PingReplyDone,
AddNodeDone, ShutdownDone}`, while src/src/executor/message.rs of the same
tree sends `FindValueDone` and `ReplyDone`, which that revision lacks; the
eight-variant enum of spec §4.7 that the executor compiles against is used. -/
inductive MessageStatus where
  | StoreDone
  | PingDone
  | PingReplyDone
  | FindValueDone
  | FindNodeDone
  | ReplyDone
  | AddNodeDone
  | ShutdownDone
deriving DecidableEq, Repr

/-- The `MessageStatus` the worker loop of `MessageExecutor::start`
(src/executor/message.rs, lines 84–152) sends on the submission reply
channel per message kind; `none` for `AddNode`, which falls into the
unhandled `_ => {}` arm that sends nothing. The `FindNode` arm of the source
sends `FindValueDone` (line 116). -/
def MessageExecutor.status_for (message : Message) : Option MessageStatus :=
  match message with
  | .Store .. => some .StoreDone
  | .FindValue .. => some .FindValueDone
  | .FindNode .. => some .FindValueDone
  | .Ping .. => some .PingDone
  | .PingReply .. => some .ReplyDone
  | .FindValueReply .. => some .ReplyDone
  | .FindNodeReply .. => some .ReplyDone
  | .ShutDown => some .ShutdownDone
  | .AddNode .. => none

/-- Events in the send path of src/net/mod.rs, in chronological trace order:
`wrote` is the completed `connect_and_write`, `registered` the waiting-list
insertion. -/
inductive NetEvent where
  | wrote (message : Message) (endpoint : Endpoint)
  | registered (message_id : MessageId)
deriving DecidableEq, Repr

/-- Is the event the outbound write? -/
def NetEvent.is_write : NetEvent → Bool
  | .wrote .. => true
  | .registered _ => false

/-- Is the event the registration of `message_id`? -/
def NetEvent.is_registration (message_id : MessageId) : NetEvent → Bool
  | .registered id => id == message_id
  | .wrote .. => false

/-- `AsyncNetwork` from src/net/mod.rs: the waiting list is reduced to its
registered message ids (C1 does not depend on the stored callbacks), and
`next_message_id` is the `AtomicI64` counter. -/
structure AsyncNetwork where
  waiting_list : List MessageId
  next_message_id : MessageId
deriving DecidableEq, Repr

/-- `AsyncNetwork::new` from src/net/mod.rs: counter starts at 1. -/
def AsyncNetwork.new (waiting_list : List MessageId) : AsyncNetwork :=
  { waiting_list, next_message_id := 1 }

/-- `AsyncNetwork::generate_next_message_id` from src/net/mod.rs: fetch-add. -/
def AsyncNetwork.generate_next_message_id (net : AsyncNetwork) : MessageId × AsyncNetwork :=
  (net.next_message_id, { net with next_message_id := net.next_message_id + 1 })

/-- `AsyncNetwork::send_with_message_id_expect_reply` from src/net/mod.rs
(lines 78–91): assign the next id, set it on the message, await
`connect_and_write` (its success is the `send_ok` parameter), then add the
callback to the waiting list, and return the stored send result. The returned
trace lists the events in the order they happen. -/
def AsyncNetwork.send_with_message_id_expect_reply (net : AsyncNetwork) (message : Message)
    (endpoint : Endpoint) (send_ok : Bool) : (Bool × AsyncNetwork) × List NetEvent :=
  let generated := net.generate_next_message_id
  let message_id := generated.1
  let net1 := generated.2
  let sent_message := message.set_message_id message_id
  let send_result := send_ok
  let net2 := { net1 with waiting_list := net1.waiting_list ++ [message_id] }
  ((send_result, net2),
    [NetEvent.wrote sent_message endpoint, NetEvent.registered message_id])

/-- `ResponseStatus` from src/net/callback.rs. -/
inductive ResponseStatus where
  | Ok
  | Err
deriving DecidableEq, Repr

/-- The probe ping outcome in `AddNodeAction::act_on`
(src/executor/message_action.rs): either `send_with_message_id_expect_reply`
returns `Err`, or it returns `Ok` and the awaited `ResponseAwaitingCallback`
handle resolves with the given `ResponseStatus` (`Err` covers the
waiting-list timeout delivered by the sweeper). -/
inductive ProbeOutcome where
  | sendFailed
  | replied (status : ResponseStatus)
deriving DecidableEq, Repr

/-- `AddNodeAction::act_on` from src/executor/message_action.rs (lines
179–208): add the source node; if the bucket refused it and holds an oldest
node, probe it with a ping; on a send error or an `Err` status the new node
displaces the oldest via `remove_and_add`; on `Ok` nothing changes. -/
def AddNodeAction.act_on (routing_table : Table) (source : Source)
    (outcome : ProbeOutcome) : Table :=
  let result := routing_table.add source.to_node
  let bucket_index := result.1.1
  let added := result.1.2
  let t1 := result.2
  if added then
    t1
  else
    match t1.first_node_in bucket_index with
    | none => t1
    | some node =>
      match outcome with
      | .sendFailed => t1.remove_and_add bucket_index node source.to_node
      | .replied .Err => t1.remove_and_add bucket_index node source.to_node
      | .replied .Ok => t1

/-- Witness input for C8: the incumbent node in bucket 3 of a capacity-1
table owned by id `255`. -/
def witness_oldest : Node := Node.new_with_id (Endpoint.new [104] 2379) (Id.new [0, 247])

/-- Witness input for C8: a distinct node whose id maps to the same bucket. -/
def witness_source : Source :=
  { node_endpoint := Endpoint.new [104] 7880, node_id := Id.new [0, 247] }

/-- Witness input for C8: the capacity-1 table already holding the incumbent. -/
def witness_table : Table :=
  ((Table.new_with_bucket_capacity (Id.new [0, 255]) 1).add witness_oldest).2

/-- The observable state of `WaitingList` from src/net/wait.rs: the
`DashMap<MessageId, TimedCallback>` as the association list of pending ids
with their creation times (callback objects carry no further state the claims
depend on; an invocation is recorded by the id it resolves). -/
abbrev WaitState := List (MessageId × Nat)

/-- The pending message ids of a waiting-list state. -/
def keysOf (s : WaitState) : List MessageId := s.map Prod.fst

/-- `TimedCallback::has_expired` from src/net/wait.rs:
`clock.duration_since(creation_time) > expiry_after`. The `Clock` lives in
src/time.rs, absent from src/; modelled from the spec: `duration_since`
clamps to zero when `now < earlier`, which is `Nat` subtraction. -/
def TimedCallback.has_expired (creation_time now expiry_after : Nat) : Bool :=
  decide (expiry_after < now - creation_time)

/-- `WaitingList::handle_response` from src/net/wait.rs: atomically remove the
entry for the id; if one existed, invoke its callback (the returned list of
invoked ids); otherwise do nothing. -/
def WaitingList.handle_response (s : WaitState) (message_id : MessageId) :
    WaitState × List MessageId :=
  match s.find? (fun entry => entry.1 == message_id) with
  | some _ => (s.eraseP (fun entry => entry.1 == message_id), [message_id])
  | none => (s, [])

/-- `ExpiredPendingResponsesCleaner::clean` from src/net/wait.rs: `retain`
keeps the unexpired entries and invokes `on_timeout_response` for each
expired one (the returned list of invoked ids). -/
def ExpiredPendingResponsesCleaner.clean (s : WaitState) (now expiry_after : Nat) :
    WaitState × List MessageId :=
  (s.filter (fun entry => !TimedCallback.has_expired entry.2 now expiry_after),
   (s.filter (fun entry => TimedCallback.has_expired entry.2 now expiry_after)).map Prod.fst)

/-- An observable step on the waiting list: a reply arriving for an id, or a
sweeper pass at some instant. -/
inductive WaitOp where
  | handleResponse (message_id : MessageId)
  | clean (now : Nat)
deriving DecidableEq, Repr

/-- One waiting-list step: dispatch a reply or run a sweeper pass. -/
def WaitingList.step (expiry_after : Nat) (s : WaitState) : WaitOp → WaitState × List MessageId
  | WaitOp.handleResponse id => WaitingList.handle_response s id
  | WaitOp.clean now => ExpiredPendingResponsesCleaner.clean s now expiry_after

/-- Run a sequence of waiting-list steps, collecting every callback
invocation in order. -/
def WaitingList.run (expiry_after : Nat) : WaitState → List WaitOp → WaitState × List MessageId
  | s, [] => (s, [])
  | s, op :: rest =>
    let step := WaitingList.step expiry_after s op
    let tail := WaitingList.run expiry_after step.1 rest
    (tail.1, step.2 ++ tail.2)

/-!
The message codec of src/net/message.rs: `Message::serialize` produces a
4-byte big-endian `u32` length prefix (`bytes.len() as u32`, truncating)
followed by the bincode body; `Message::deserialize_from` skips the 4-byte
prefix (`&bytes[U32_SIZE..]`) and decodes the body. The body follows
the bincode 1.x default fixed-int little-endian layout: a `u32` variant tag,
`u64` lengths before vectors and strings, one tag byte for `Option`, and
twos-complement little-endian `i64` for message ids (spec §4.2 fixes only
the frame and round-trip, leaving the body scheme to the implementation).
-/

/-- Little-endian byte decomposition of a natural number into `width` bytes. -/
def natToLEBytes : Nat → Nat → List Nat
  | 0, _ => []
  | width + 1, n => n % 256 :: natToLEBytes width (n / 256)

/-- Big-endian byte decomposition into `width` bytes. -/
def natToBEBytes (width n : Nat) : List Nat :=
  (natToLEBytes width n).reverse

/-- Read little-endian bytes back into a natural number. -/
def leBytesToNat (bytes : List Nat) : Nat :=
  bytes.foldr (fun byte acc => acc * 256 + byte) 0

/-- Encoded `u64`. -/
def encodeU64 (n : Nat) : List Nat := natToLEBytes 8 n

/-- Encoded `u32`. -/
def encodeU32 (n : Nat) : List Nat := natToLEBytes 4 n

/-- Encoded `u16`. -/
def encodeU16 (n : Nat) : List Nat := natToLEBytes 2 n

/-- Encoded `i64`, twos complement. -/
def encodeI64 (i : Int) : List Nat :=
  natToLEBytes 8 (i % (2 ^ 64 : Int)).toNat

/-- Encoded `Vec<u8>` / `String`: `u64` length then the raw bytes. -/
def encodeBytes (v : List Nat) : List Nat := encodeU64 v.length ++ v

/-- Encoded `Option<T>`: one tag byte, then the payload when present. -/
def encodeOptionWith {α : Type} (enc : α → List Nat) : Option α → List Nat
  | none => [0]
  | some a => 1 :: enc a

/-- Encoded `Endpoint { host: String, port: u16 }`. -/
def encodeEndpoint (e : Endpoint) : List Nat :=
  encodeBytes e.host ++ encodeU16 e.port

/-- Encoded `Id { id: Vec<u8>, id_length_in_bits: usize }`. -/
def encodeId (i : Id) : List Nat :=
  encodeBytes i.id ++ encodeU64 i.id_length_in_bits

/-- Encoded `Source { node_endpoint, node_id }`. -/
def encodeSource (s : Source) : List Nat :=
  encodeEndpoint s.node_endpoint ++ encodeId s.node_id

/-- Encoded `Vec<Source>`: `u64` count then the elements. -/
def encodeSources (l : List Source) : List Nat :=
  encodeU64 l.length ++ l.flatMap encodeSource

/-- The bincode body of a `Message`: `u32` variant tag, then the fields in
declaration order. -/
def encodeBody : Message → List Nat
  | .Store key key_id value source =>
      encodeU32 0 ++ encodeBytes key ++ encodeId key_id ++ encodeBytes value
        ++ encodeSource source
  | .AddNode source => encodeU32 1 ++ encodeSource source
  | .FindValue source message_id key key_id =>
      encodeU32 2 ++ encodeSource source ++ encodeOptionWith encodeI64 message_id
        ++ encodeBytes key ++ encodeId key_id
  | .FindValueReply message_id value neighbors =>
      encodeU32 3 ++ encodeI64 message_id ++ encodeOptionWith encodeBytes value
        ++ encodeOptionWith encodeSources neighbors
  | .FindNode source message_id node_id =>
      encodeU32 4 ++ encodeSource source ++ encodeOptionWith encodeI64 message_id
        ++ encodeId node_id
  | .FindNodeReply message_id neighbors =>
      encodeU32 5 ++ encodeI64 message_id ++ encodeSources neighbors
  | .Ping message_id from_node =>
      encodeU32 6 ++ encodeOptionWith encodeI64 message_id ++ encodeSource from_node
  | .PingReply message_id to_peer =>
      encodeU32 7 ++ encodeI64 message_id ++ encodeSource to_peer
  | .ShutDown => encodeU32 8

/-- `Message::serialize` from src/net/message.rs: the body length as a 4-byte
big-endian `u32` (`len as u32` truncates, which the 4-byte decomposition
does), then the body. -/
def Message.serialize (m : Message) : List Nat :=
  natToBEBytes 4 (encodeBody m).length ++ encodeBody m

/-- Read `n` raw bytes. -/
def readBytes (n : Nat) (l : List Nat) : Option (List Nat × List Nat) :=
  if n ≤ l.length then some (l.take n, l.drop n) else none

/-- Read a little-endian `u64`. -/
def readU64 (l : List Nat) : Option (Nat × List Nat) :=
  (readBytes 8 l).map (fun p => (leBytesToNat p.1, p.2))

/-- Read a little-endian `u32`. -/
def readU32 (l : List Nat) : Option (Nat × List Nat) :=
  (readBytes 4 l).map (fun p => (leBytesToNat p.1, p.2))

/-- Read a little-endian `u16`. -/
def readU16 (l : List Nat) : Option (Nat × List Nat) :=
  (readBytes 2 l).map (fun p => (leBytesToNat p.1, p.2))

/-- Read a twos-complement little-endian `i64`. -/
def readI64 (l : List Nat) : Option (Int × List Nat) :=
  (readBytes 8 l).map (fun p =>
    (if leBytesToNat p.1 < 2 ^ 63 then (leBytesToNat p.1 : Int)
     else (leBytesToNat p.1 : Int) - 2 ^ 64, p.2))

/-- Read a `Vec<u8>` / `String`. -/
def readVec (l : List Nat) : Option (List Nat × List Nat) := do
  let (len, l1) ← readU64 l
  readBytes len l1

/-- Read an `Option<T>` given its payload reader. -/
def readOptionWith {α : Type} (dec : List Nat → Option (α × List Nat)) :
    List Nat → Option (Option α × List Nat)
  | [] => none
  | 0 :: rest => some (none, rest)
  | 1 :: rest => (dec rest).map (fun p => (some p.1, p.2))
  | _ => none

/-- Read an `Endpoint`. -/
def readEndpoint (l : List Nat) : Option (Endpoint × List Nat) := do
  let (host, l1) ← readVec l
  let (port, l2) ← readU16 l1
  some (Endpoint.new host port, l2)

/-- Read an `Id`. -/
def readId (l : List Nat) : Option (Id × List Nat) := do
  let (bytes, l1) ← readVec l
  let (bits, l2) ← readU64 l1
  some ({ id := bytes, id_length_in_bits := bits }, l2)

/-- Read a `Source`. -/
def readSource (l : List Nat) : Option (Source × List Nat) := do
  let (endpoint, l1) ← readEndpoint l
  let (node_id, l2) ← readId l1
  some ({ node_endpoint := endpoint, node_id }, l2)

/-- Read `count` consecutive `Source`s. -/
def readSourceList : Nat → List Nat → Option (List Source × List Nat)
  | 0, l => some ([], l)
  | count + 1, l => do
    let (s, l1) ← readSource l
    let (rest, l2) ← readSourceList count l1
    some (s :: rest, l2)

/-- Read a `Vec<Source>`. -/
def readSources (l : List Nat) : Option (List Source × List Nat) := do
  let (count, l1) ← readU64 l
  readSourceList count l1

/-- Decode a bincode message body: `u32` tag, then the variant fields
(trailing bytes are ignored, as `bincode::deserialize` on a slice does). -/
def decodeBody (l : List Nat) : Option Message := do
  let (tag, l0) ← readU32 l
  match tag with
  | 0 => do
    let (key, l1) ← readVec l0
    let (key_id, l2) ← readId l1
    let (value, l3) ← readVec l2
    let (source, _) ← readSource l3
    some (Message.Store key key_id value source)
  | 1 => do
    let (source, _) ← readSource l0
    some (Message.AddNode source)
  | 2 => do
    let (source, l1) ← readSource l0
    let (message_id, l2) ← readOptionWith readI64 l1
    let (key, l3) ← readVec l2
    let (key_id, _) ← readId l3
    some (Message.FindValue source message_id key key_id)
  | 3 => do
    let (message_id, l1) ← readI64 l0
    let (value, l2) ← readOptionWith readVec l1
    let (neighbors, _) ← readOptionWith readSources l2
    some (Message.FindValueReply message_id value neighbors)
  | 4 => do
    let (source, l1) ← readSource l0
    let (message_id, l2) ← readOptionWith readI64 l1
    let (node_id, _) ← readId l2
    some (Message.FindNode source message_id node_id)
  | 5 => do
    let (message_id, l1) ← readI64 l0
    let (neighbors, _) ← readSources l1
    some (Message.FindNodeReply message_id neighbors)
  | 6 => do
    let (message_id, l1) ← readOptionWith readI64 l0
    let (from_node, _) ← readSource l1
    some (Message.Ping message_id from_node)
  | 7 => do
    let (message_id, l1) ← readI64 l0
    let (to_peer, _) ← readSource l1
    some (Message.PingReply message_id to_peer)
  | 8 => some Message.ShutDown
  | _ => none

/-- `Message::deserialize_from` from src/net/message.rs: skip the 4-byte
length prefix (`&bytes[U32_SIZE..]`) and decode the body. -/
def Message.deserialize_from (bytes : List Nat) : Option Message :=
  decodeBody (bytes.drop 4)

/-- An `Endpoint` within the wire format ranges. -/
def EndpointWireSized (e : Endpoint) : Prop :=
  e.host.length < 2 ^ 64 ∧ e.port < 2 ^ 16

/-- An `Id` within the wire format ranges. -/
def IdWireSized (i : Id) : Prop :=
  i.id.length < 2 ^ 64 ∧ i.id_length_in_bits < 2 ^ 64

/-- A `Source` within the wire format ranges. -/
def SourceWireSized (s : Source) : Prop :=
  EndpointWireSized s.node_endpoint ∧ IdWireSized s.node_id

/-- An `i64`-ranged message id. -/
def MessageIdWireSized (i : Int) : Prop :=
  -(2 ^ 63) ≤ i ∧ i < 2 ^ 63

/-- A message whose components fit the widths of the wire format — always the
case for values produced by the Rust structs (`usize`, `u16`, `i64`). -/
def WireSized : Message → Prop
  | .Store key key_id value source =>
      key.length < 2 ^ 64 ∧ IdWireSized key_id ∧ value.length < 2 ^ 64
        ∧ SourceWireSized source
  | .AddNode source => SourceWireSized source
  | .FindValue source message_id key key_id =>
      SourceWireSized source ∧ (∀ i ∈ message_id, MessageIdWireSized i)
        ∧ key.length < 2 ^ 64 ∧ IdWireSized key_id
  | .FindValueReply message_id value neighbors =>
      MessageIdWireSized message_id ∧ (∀ v ∈ value, v.length < 2 ^ 64)
        ∧ (∀ ns ∈ neighbors, ns.length < 2 ^ 64 ∧ ∀ s ∈ ns, SourceWireSized s)
  | .FindNode source message_id node_id =>
      SourceWireSized source ∧ (∀ i ∈ message_id, MessageIdWireSized i)
        ∧ IdWireSized node_id
  | .FindNodeReply message_id neighbors =>
      MessageIdWireSized message_id ∧ neighbors.length < 2 ^ 64
        ∧ ∀ s ∈ neighbors, SourceWireSized s
  | .Ping message_id from_node =>
      (∀ i ∈ message_id, MessageIdWireSized i) ∧ SourceWireSized from_node
  | .PingReply message_id to_peer =>
      MessageIdWireSized message_id ∧ SourceWireSized to_peer
  | .ShutDown => True

set_option maxRecDepth 8192 in
theorem bit_position_set_in_eq (x : Nat) (hx : x < 256) :
    Id.bit_position_set_in x =
      if x = 0 then (0, false) else (msbFirstSetBitIndex x, true) := by
  revert hx
  revert x
  decide

theorem bit_position_set_in_zero : Id.bit_position_set_in 0 = (0, false) := by
  decide

theorem differing_bit_position_go_self (bits idx : Nat) (l : List Nat) :
    Id.differing_bit_position_go bits l l idx = 0 := by
  induction l generalizing idx with
  | nil => rfl
  | cons b rest ih =>
    simp [Id.differing_bit_position_go, Nat.xor_self, bit_position_set_in_zero, ih]

theorem differing_bit_position_go_lt (bits : Nat) (hbits : 0 < bits) :
    ∀ (as bs : List Nat) (idx : Nat),
      Id.differing_bit_position_go bits as bs idx < bits := by
  intro as
  induction as with
  | nil => intro bs idx; simpa [Id.differing_bit_position_go] using hbits
  | cons a rest ih =>
    intro bs idx
    cases bs with
    | nil => simpa [Id.differing_bit_position_go] using hbits
    | cons b brest =>
      simp only [Id.differing_bit_position_go]
      by_cases h : (Id.bit_position_set_in (a ^^^ b)).2
      · simp only [h, if_pos]
        omega
      · simp only [h, if_neg, Bool.false_eq_true, not_false_iff]
        exact ih brest (idx + 1)

theorem differing_bit_position_go_first_diff (bits : Nat) :
    ∀ (i : Nat) (as bs : List Nat) (idx : Nat),
      as.length = bs.length →
      (∀ x ∈ as, x < 256) → (∀ x ∈ bs, x < 256) →
      i < as.length →
      as.getD i 0 ≠ bs.getD i 0 →
      (∀ j, j < i → as.getD j 0 = bs.getD j 0) →
      Id.differing_bit_position_go bits as bs idx =
        bits - ((idx + i) * BITS_IN_BYTE + msbFirstSetBitIndex (as.getD i 0 ^^^ bs.getD i 0)) - 1 := by
  intro i
  induction i with
  | zero =>
    intro as bs idx hlen hba hbb hi hdiff _
    cases as with
    | nil => simp at hi
    | cons a arest =>
      cases bs with
      | nil => simp at hlen
      | cons b brest =>
        simp only [List.getD_cons_zero] at hdiff
        have hpow8 : (2 : Nat) ^ 8 = 256 := by norm_num
        have hxa : a < 2 ^ 8 := by
          have := hba a (by simp)
          omega
        have hxb : b < 2 ^ 8 := by
          have := hbb b (by simp)
          omega
        have hxor : a ^^^ b < 256 := by
          have h := Nat.xor_lt_two_pow hxa hxb
          omega
        have hne : a ^^^ b ≠ 0 := by
          intro h
          exact hdiff (Nat.xor_eq_zero.mp h)
        simp [Id.differing_bit_position_go, bit_position_set_in_eq _ hxor, hne]
  | succ j ih =>
    intro as bs idx hlen hba hbb hi hdiff hfirst
    cases as with
    | nil => simp at hi
    | cons a arest =>
      cases bs with
      | nil => simp at hlen
      | cons b brest =>
        have hab : a = b := by
          have := hfirst 0 (Nat.succ_pos j)
          simpa using this
        subst hab
        have hrec := ih arest brest (idx + 1)
          (by simpa using hlen)
          (fun x hx => hba x (List.mem_cons_of_mem _ hx))
          (fun x hx => hbb x (List.mem_cons_of_mem _ hx))
          (by simpa using hi)
          (by simpa using hdiff)
          (fun k hk => by
            have := hfirst (k + 1) (Nat.succ_lt_succ hk)
            simpa using this)
        have hstep : Id.differing_bit_position_go bits (a :: arest) (a :: brest) idx
            = Id.differing_bit_position_go bits arest brest (idx + 1) := by
          simp [Id.differing_bit_position_go, bit_position_set_in_zero]
        rw [hstep, hrec]
        simp only [List.getD_cons_succ]
        ring_nf

theorem zip_self_xor (l : List Nat) :
    (l.zip l).map (fun pair => pair.1 ^^^ pair.2) = List.replicate l.length 0 := by
  induction l with
  | nil => rfl
  | cons b rest ih => simp [List.replicate_succ, ih]

theorem bytesToNatBE_replicate_zero (n : Nat) :
    bytesToNatBE (List.replicate n 0) = 0 := by
  have general : ∀ (m : Nat), (List.replicate m 0).foldl (fun acc byte => acc * 256 + byte) 0 = 0 := by
    intro m
    induction m with
    | zero => rfl
    | succ k ih => simpa [List.replicate_succ] using ih
  exact general n

theorem distance_from_self (a : Id) : Id.distance_from a a = 0 := by
  unfold Id.distance_from
  rw [zip_self_xor, bytesToNatBE_replicate_zero]

/-- C4: for ids of one byte length, `differing_bit_position` returns
`BITS − (8·i + b) − 1` where `i` is the first byte index at which the two ids
differ and `b` is the zero-based-from-MSB index of the first set bit of the
XOR of the differing bytes; and on equal ids both `differing_bit_position`
and `distance_from` return 0. -/
theorem differing_bit_position_spec :
    (∀ (as bs : List Nat) (i : Nat),
      as.length = bs.length →
      (∀ x ∈ as, x < 256) → (∀ x ∈ bs, x < 256) →
      i < as.length →
      as.getD i 0 ≠ bs.getD i 0 →
      (∀ j, j < i → as.getD j 0 = bs.getD j 0) →
      Id.differing_bit_position (Id.new as) (Id.new bs) =
        as.length * BITS_IN_BYTE
          - (BITS_IN_BYTE * i + msbFirstSetBitIndex (as.getD i 0 ^^^ bs.getD i 0)) - 1)
    ∧ (∀ a : Id, Id.differing_bit_position a a = 0 ∧ Id.distance_from a a = 0) := by
  constructor
  · intro as bs i hlen hba hbb hi hdiff hfirst
    have h := differing_bit_position_go_first_diff (as.length * BITS_IN_BYTE) i as bs 0
      hlen hba hbb hi hdiff hfirst
    unfold Id.differing_bit_position Id.new
    simp only at h ⊢
    rw [h]
    ring_nf
  · intro a
    exact ⟨differing_bit_position_go_self a.id_length_in_bits 0 a.id, distance_from_self a⟩

/-- Witness for C4: ids `511` and `255` as two big-endian bytes differ first at
byte index 0, whose XOR is 1, giving position 8 (the value the repository
test expects); and the id `255` compared with itself gives 0. -/
theorem differing_bit_position_spec_witness :
    Id.differing_bit_position (Id.new [1, 255]) (Id.new [0, 255]) =
        [1, 255].length * BITS_IN_BYTE
          - (BITS_IN_BYTE * 0
              + msbFirstSetBitIndex ([1, 255].getD 0 0 ^^^ [0, 255].getD 0 0)) - 1
      ∧ Id.differing_bit_position (Id.new [0, 255]) (Id.new [0, 255]) = 0 :=
  ⟨differing_bit_position_spec.1 [1, 255] [0, 255] 0 (by decide)
      (by decide) (by decide) (by decide) (by decide)
      (fun j hj => absurd hj (Nat.not_lt_zero j)),
    (differing_bit_position_spec.2 (Id.new [0, 255])).1⟩

theorem getD_set_self {α : Type} (l : List α) (i : Nat) (x d : α) (h : i < l.length) :
    (l.set i x).getD i d = x := by
  induction l generalizing i with
  | nil => simp at h
  | cons a rest ih =>
    cases i with
    | zero => rfl
    | succ k => exact ih k (by simpa using h)

theorem getD_set_ne {α : Type} (l : List α) (i j : Nat) (x d : α) (h : i ≠ j) :
    (l.set i x).getD j d = l.getD j d := by
  induction l generalizing i j with
  | nil => simp [List.getD]
  | cons a rest ih =>
    cases i with
    | zero =>
      cases j with
      | zero => exact absurd rfl h
      | succ k => rfl
    | succ m =>
      cases j with
      | zero => rfl
      | succ k => exact ih m k (by omega)

/-- C10: for same-length ids (of at least one byte), `differing_bit_position`
lands in `[0, 8·L)`; hence the bucket index used by `bucket_index`, `add` and
`contains` is within the buckets array and the source assertion
`bucket_index < id_length_in_bits` holds. -/
theorem bucket_index_in_range :
    (∀ (as bs : List Nat), as.length = bs.length → 0 < as.length →
      Id.differing_bit_position (Id.new as) (Id.new bs) < as.length * BITS_IN_BYTE)
    ∧ (∀ (t : Table) (node : Node),
        t.node_id.id.length = node.id.id.length →
        0 < t.node_id.id.length →
        t.node_id.id_length_in_bits = t.node_id.id.length * BITS_IN_BYTE →
        node.id.id_length_in_bits = node.id.id.length * BITS_IN_BYTE →
        t.buckets.length = t.node_id.id_length_in_bits →
        t.bucket_index node.id < node.id.id_length_in_bits
          ∧ t.bucket_index node.id < t.buckets.length
          ∧ (t.add node).1.1 < t.buckets.length
          ∧ (t.contains node).1 < t.buckets.length) := by
  have core : ∀ (bits : Nat) (as bs : List Nat) (idx : Nat), 0 < bits →
      Id.differing_bit_position_go bits as bs idx < bits :=
    fun bits as bs idx hbits => differing_bit_position_go_lt bits hbits as bs idx
  constructor
  · intro as bs _ hpos
    have hlenpos : 0 < as.length * BITS_IN_BYTE := by
      simp only [BITS_IN_BYTE]
      omega
    exact core _ as bs 0 hlenpos
  · intro t node hlen hpos hbits hnodebits hbuckets
    simp only [BITS_IN_BYTE] at hbits hnodebits
    have hbitspos : 0 < t.node_id.id_length_in_bits := by omega
    have hdb : t.node_id.differing_bit_position node.id < t.node_id.id_length_in_bits :=
      core _ _ _ 0 hbitspos
    have hidx : t.bucket_index node.id < t.buckets.length := by
      unfold Table.bucket_index
      omega
    refine ⟨?_, hidx, ?_, hidx⟩
    · unfold Table.bucket_index
      omega
    · have hfst : (t.add node).1.1 = t.bucket_index node.id := by
        unfold Table.add Table.contains Table.add_internal
        simp only [List.getD]
        by_cases hmem : node ∈ (t.buckets[t.bucket_index node.id]?).getD []
        · simp [hmem]
        · by_cases hcap :
            ((t.buckets[t.bucket_index node.id]?).getD []).length < t.max_bucket_capacity
          · simp [hmem, hcap]
          · simp [hmem, hcap]
      omega

/-- Witness for C10: a two-byte table owner id `255` and a node with id `247`. -/
theorem bucket_index_in_range_witness :
    Id.differing_bit_position (Id.new [0, 255]) (Id.new [0, 247]) < [0, 255].length * BITS_IN_BYTE
      ∧ (Table.new (Id.new [0, 255])).bucket_index (Id.new [0, 247])
          < (Table.new (Id.new [0, 255])).buckets.length :=
  ⟨bucket_index_in_range.1 [0, 255] [0, 247] rfl (by decide),
    (bucket_index_in_range.2 (Table.new (Id.new [0, 255]))
      (Node.new_with_id (Endpoint.new [] 7070) (Id.new [0, 247]))
      rfl (by decide) rfl rfl (by decide)).2.1⟩

theorem getD_replicate {α : Type} (n i : Nat) (x : α) :
    (List.replicate n x).getD i x = x := by
  induction n generalizing i with
  | zero => simp [List.getD]
  | succ k ih =>
    cases i with
    | zero => rfl
    | succ j =>
      rw [List.replicate_succ]
      exact ih j

theorem add_eq_of_absent_of_space (t : Table) (node : Node)
    (hmem : node ∉ t.buckets.getD (t.bucket_index node.id) [])
    (hcap : (t.buckets.getD (t.bucket_index node.id) []).length < t.max_bucket_capacity) :
    t.add node = ((t.bucket_index node.id, true),
      t.withBucket (t.bucket_index node.id)
        (t.buckets.getD (t.bucket_index node.id) [] ++ [node])) := by
  simp only [List.getD_eq_getElem?_getD] at hmem hcap
  simp [Table.add, Table.contains, Table.add_internal, List.getD_eq_getElem?_getD, hmem, hcap]

theorem add_eq_of_present_or_full (t : Table) (node : Node)
    (h : node ∈ t.buckets.getD (t.bucket_index node.id) []
      ∨ ¬(t.buckets.getD (t.bucket_index node.id) []).length < t.max_bucket_capacity) :
    t.add node = ((t.bucket_index node.id, false), t) := by
  by_cases hmem : node ∈ t.buckets.getD (t.bucket_index node.id) []
  · simp only [List.getD_eq_getElem?_getD] at hmem
    simp [Table.add, Table.contains, List.getD_eq_getElem?_getD, hmem]
  · have hcap : ¬(t.buckets.getD (t.bucket_index node.id) []).length < t.max_bucket_capacity := by
      rcases h with h | h
      · exact absurd h hmem
      · exact h
    simp only [List.getD_eq_getElem?_getD] at hmem hcap
    simp [Table.add, Table.contains, Table.add_internal, List.getD_eq_getElem?_getD, hmem, hcap]

theorem bucket_index_withBucket (t : Table) (node : Node) (i : Nat) (nodes : List Node) :
    (t.withBucket i nodes).bucket_index node.id = t.bucket_index node.id := rfl

theorem withBucket_getD_self (t : Table) (i : Nat) (nodes : List Node)
    (h : i < t.buckets.length) :
    (t.withBucket i nodes).buckets.getD i [] = nodes :=
  getD_set_self t.buckets i nodes [] h

/-- C6: `add` appends a new node to its bucket and reports `true` when the
node is absent and the bucket is below capacity; it reports `false` and leaves
the table unchanged when the node is present or the bucket is full; adding the
same node twice reports `false` the second time and changes nothing; and with
bucket capacity 1 a second distinct node mapped to the same bucket is rejected
and is not contained afterwards. -/
theorem table_add_spec :
    (∀ (t : Table) (node : Node),
      node ∉ t.buckets.getD (t.bucket_index node.id) [] →
      (t.buckets.getD (t.bucket_index node.id) []).length < t.max_bucket_capacity →
      t.add node = ((t.bucket_index node.id, true),
        t.withBucket (t.bucket_index node.id)
          (t.buckets.getD (t.bucket_index node.id) [] ++ [node])))
    ∧ (∀ (t : Table) (node : Node),
        node ∈ t.buckets.getD (t.bucket_index node.id) []
          ∨ ¬(t.buckets.getD (t.bucket_index node.id) []).length < t.max_bucket_capacity →
        t.add node = ((t.bucket_index node.id, false), t))
    ∧ (∀ (t : Table) (node : Node),
        t.bucket_index node.id < t.buckets.length →
        ((t.add node).2.add node).1.2 = false
          ∧ ((t.add node).2.add node).2 = (t.add node).2)
    ∧ (∀ (node_id : Id) (n1 n2 : Node),
        n1 ≠ n2 →
        (Table.new_with_bucket_capacity node_id 1).bucket_index n1.id
          = (Table.new_with_bucket_capacity node_id 1).bucket_index n2.id →
        (Table.new_with_bucket_capacity node_id 1).bucket_index n1.id
          < node_id.id_length_in_bits →
        ((Table.new_with_bucket_capacity node_id 1).add n1).1.2 = true
          ∧ (((Table.new_with_bucket_capacity node_id 1).add n1).2.add n2).1.2 = false
          ∧ ((((Table.new_with_bucket_capacity node_id 1).add n1).2).contains n2).2 = false) := by
  refine ⟨?_, ?_, ?_, ?_⟩
  · intro t node hmem hcap
    exact add_eq_of_absent_of_space t node hmem hcap
  · intro t node h
    exact add_eq_of_present_or_full t node h
  · intro t node hrange
    by_cases hmem : node ∈ t.buckets.getD (t.bucket_index node.id) []
    · rw [add_eq_of_present_or_full t node (Or.inl hmem)]
      rw [add_eq_of_present_or_full t node (Or.inl hmem)]
      exact ⟨rfl, rfl⟩
    · by_cases hcap :
        (t.buckets.getD (t.bucket_index node.id) []).length < t.max_bucket_capacity
      · rw [add_eq_of_absent_of_space t node hmem hcap]
        set t1 : Table := t.withBucket (t.bucket_index node.id)
          (t.buckets.getD (t.bucket_index node.id) [] ++ [node]) with ht1
        have hbi : t1.bucket_index node.id = t.bucket_index node.id := rfl
        have hbucket : t1.buckets.getD (t1.bucket_index node.id) []
            = t.buckets.getD (t.bucket_index node.id) [] ++ [node] := by
          rw [hbi]
          exact getD_set_self t.buckets (t.bucket_index node.id) _ [] hrange
        have hmem1 : node ∈ t1.buckets.getD (t1.bucket_index node.id) [] := by
          rw [hbucket]
          exact List.mem_append_right _ (List.mem_singleton.mpr rfl)
        rw [add_eq_of_present_or_full t1 node (Or.inl hmem1)]
        exact ⟨rfl, rfl⟩
      · rw [add_eq_of_present_or_full t node (Or.inr hcap)]
        rw [add_eq_of_present_or_full t node (Or.inr hcap)]
        exact ⟨rfl, rfl⟩
  · intro node_id n1 n2 hne hsame hrange
    set t : Table := Table.new_with_bucket_capacity node_id 1 with ht
    have hrange' : t.bucket_index n1.id < t.buckets.length := by
      simpa [ht, Table.new_with_bucket_capacity] using hrange
    have hempty : t.buckets.getD (t.bucket_index n1.id) [] = [] := by
      simp only [ht, Table.new_with_bucket_capacity]
      exact getD_replicate _ _ []
    have hadd1 := add_eq_of_absent_of_space t n1
      (by rw [hempty]; exact List.not_mem_nil n1)
      (by rw [hempty]; simp [ht, Table.new_with_bucket_capacity])
    set t1 : Table := t.withBucket (t.bucket_index n1.id)
      (t.buckets.getD (t.bucket_index n1.id) [] ++ [n1]) with ht1
    have hbucket : t1.buckets.getD (t1.bucket_index n2.id) [] = [n1] := by
      have hbi2 : t1.bucket_index n2.id = t.bucket_index n1.id := by
        have h0 : t1.bucket_index n2.id = t.bucket_index n2.id := rfl
        rw [h0, ← hsame]
      rw [hbi2, ht1, withBucket_getD_self t _ _ hrange', hempty, List.nil_append]
    refine ⟨by rw [hadd1], ?_, ?_⟩
    · rw [hadd1]
      have hcap1 : ¬(t1.buckets.getD (t1.bucket_index n2.id) []).length
          < t1.max_bucket_capacity := by
        rw [hbucket]
        simp [ht1, Table.withBucket, ht, Table.new_with_bucket_capacity]
      rw [add_eq_of_present_or_full t1 n2 (Or.inr hcap1)]
    · rw [hadd1]
      have hnotmem : n2 ∉ t1.buckets.getD (t1.bucket_index n2.id) [] := by
        rw [hbucket]
        intro hmem2
        exact hne (List.mem_singleton.mp hmem2).symm
      simp only [List.getD_eq_getElem?_getD] at hnotmem
      simp [Table.contains, List.getD_eq_getElem?_getD, hnotmem]

/-- Witness for C6: a capacity-1 table owned by the two-byte id `255` rejects
the second of two distinct nodes whose ids both map to bucket 3 (id `247`). -/
theorem table_add_spec_witness :
    ((Table.new_with_bucket_capacity (Id.new [0, 255]) 1).add
        (Node.new_with_id (Endpoint.new [104] 2379) (Id.new [0, 247]))).1.2 = true
      ∧ (((Table.new_with_bucket_capacity (Id.new [0, 255]) 1).add
            (Node.new_with_id (Endpoint.new [104] 2379) (Id.new [0, 247]))).2.add
          (Node.new_with_id (Endpoint.new [104] 8989) (Id.new [0, 247]))).1.2 = false
      ∧ ((((Table.new_with_bucket_capacity (Id.new [0, 255]) 1).add
            (Node.new_with_id (Endpoint.new [104] 2379) (Id.new [0, 247]))).2).contains
          (Node.new_with_id (Endpoint.new [104] 8989) (Id.new [0, 247]))).2 = false :=
  table_add_spec.2.2.2 (Id.new [0, 255])
    (Node.new_with_id (Endpoint.new [104] 2379) (Id.new [0, 247]))
    (Node.new_with_id (Endpoint.new [104] 8989) (Id.new [0, 247]))
    (by decide) (by decide) (by decide)

theorem specVisitUpTo_succ (bits b k : Nat) :
    specVisitUpTo bits b (k + 1) = specVisitUpTo bits b k
      ++ ((if b + k + 1 < bits then [b + k + 1] else [])
          ++ (if k + 1 ≤ b then [b - (k + 1)] else [])) := by
  simp [specVisitUpTo, List.range_succ]

theorem specVisitUpTo_length (bits b : Nat) (hb : b < bits) (k : Nat) :
    (specVisitUpTo bits b k).length = 1 + min k (bits - 1 - b) + min k b := by
  induction k with
  | zero => simp [specVisitUpTo]
  | succ j ih =>
    rw [specVisitUpTo_succ, List.length_append, ih]
    by_cases h1 : b + j + 1 < bits <;> by_cases h2 : j + 1 ≤ b <;>
      simp [h1, h2] <;> omega

theorem specVisitUpTo_stable (bits b k : Nat)
    (h1 : bits ≤ b + k + 1) (h2 : b ≤ k) :
    ∀ m, k ≤ m → specVisitUpTo bits b m = specVisitUpTo bits b k := by
  intro m hm
  induction m with
  | zero =>
    have : k = 0 := Nat.le_zero.mp hm
    rw [this]
  | succ j ih =>
    rcases Nat.lt_or_ge k (j + 1) with hlt | hge
    · have hkj : k ≤ j := Nat.lt_succ_iff.mp hlt
      rw [specVisitUpTo_succ, ih hkj]
      have hc1 : ¬b + j + 1 < bits := by omega
      have hc2 : ¬j + 1 ≤ b := by omega
      simp [hc1, hc2]
    · have : k = j + 1 := Nat.le_antisymm hm hge
      rw [this]

theorem adjacent_loop_eq (bits b : Nat) (hb : b < bits) :
    ∀ (fuel k : Nat), fuel + k = bits →
      Table.adjacent_indices_loop bits fuel ((b : Int) - 1 - k) (b + 1 + k)
        (specVisitUpTo bits b k) = specVisitUpTo bits b bits := by
  intro fuel
  induction fuel with
  | zero =>
    intro k hk
    have : k = bits := by omega
    rw [this]
    rfl
  | succ f ih =>
    intro k hk
    rw [Table.adjacent_indices_loop]
    by_cases hlen : (specVisitUpTo bits b k).length < bits
    · simp only [hlen, if_pos]
      have hacc :
          (if (0 : Int) ≤ (b : Int) - 1 - k
            then (if b + 1 + k < bits then specVisitUpTo bits b k ++ [b + 1 + k]
                  else specVisitUpTo bits b k) ++ [((b : Int) - 1 - k).toNat]
            else (if b + 1 + k < bits then specVisitUpTo bits b k ++ [b + 1 + k]
                  else specVisitUpTo bits b k))
            = specVisitUpTo bits b (k + 1) := by
        rw [specVisitUpTo_succ]
        by_cases h1 : b + k + 1 < bits <;> by_cases h2 : k + 1 ≤ b
        · have hh : b + 1 + k < bits := by omega
          have hl : (0 : Int) ≤ (b : Int) - 1 - k := by omega
          have ht : ((b : Int) - 1 - k).toNat = b - (k + 1) := by omega
          simp [hh, hl, ht, h1, h2]
          omega
        · have hh : b + 1 + k < bits := by omega
          have hl : ¬(0 : Int) ≤ (b : Int) - 1 - k := by omega
          simp [hh, hl, h1, h2]
          omega
        · have hh : ¬b + 1 + k < bits := by omega
          have hl : (0 : Int) ≤ (b : Int) - 1 - k := by omega
          have ht : ((b : Int) - 1 - k).toNat = b - (k + 1) := by omega
          simp [hh, hl, ht, h1, h2]
        · have hh : ¬b + 1 + k < bits := by omega
          have hl : ¬(0 : Int) ≤ (b : Int) - 1 - k := by omega
          simp [hh, hl, h1, h2]
      have harg1 : (b : Int) - 1 - k - 1 = (b : Int) - 1 - (k + 1 : Nat) := by
        push_cast
        ring
      have harg2 : b + 1 + k + 1 = b + 1 + (k + 1) := by omega
      rw [hacc, harg1, harg2]
      exact ih (k + 1) (by omega)
    · simp only [hlen, if_neg, Bool.false_eq_true, not_false_iff]
      have hlen' := specVisitUpTo_length bits b hb k
      have hmin1 : min k (bits - 1 - b) = bits - 1 - b := by omega
      have hmin2 : min k b = b := by omega
      have h1 : bits ≤ b + k + 1 := by omega
      have h2 : b ≤ k := by omega
      exact (specVisitUpTo_stable bits b k h1 h2 bits (by omega)).symm

theorem all_adjacent_eq_spec (t : Table) (b : Nat)
    (hb : b < t.node_id.id_length_in_bits) :
    t.all_adjacent_bucket_indices b = specVisitOrder t.node_id.id_length_in_bits b := by
  have h := adjacent_loop_eq t.node_id.id_length_in_bits b hb t.node_id.id_length_in_bits 0
    (by omega)
  unfold Table.all_adjacent_bucket_indices specVisitOrder
  have h0 : specVisitUpTo t.node_id.id_length_in_bits b 0 = [b] := by
    simp [specVisitUpTo]
  rw [← h0]
  simpa using h

theorem add_missing_inv :
    ∀ (nodes : List Node) (cn : ClosestNeighbors), cn.inv →
      (cn.add_missing nodes).1.inv
        ∧ (cn.add_missing nodes).1.target = cn.target
        ∧ (cn.add_missing nodes).1.maximum_capacity = cn.maximum_capacity := by
  intro nodes
  induction nodes with
  | nil =>
    intro cn hinv
    exact ⟨hinv, rfl, rfl⟩
  | cons node rest ih =>
    intro cn hinv
    rw [ClosestNeighbors.add_missing]
    by_cases hcap : cn.nodes.length < cn.maximum_capacity
    · by_cases hseen : node.id ∈ cn.node_ids
      · simp only [hcap, if_pos, hseen]
        exact ih cn hinv
      · simp only [hcap, if_pos, hseen, if_neg, not_false_iff]
        obtain ⟨hids, hnodup, _⟩ := hinv
        refine ih _ ⟨?_, ?_, ?_⟩
        · simp [hids]
        · simp only [List.map_append, List.map_cons, List.map_nil]
          rw [List.nodup_append]
          refine ⟨hnodup, List.nodup_singleton _, ?_⟩
          intro x hx
          simp only [List.mem_singleton]
          intro hcon
          apply hseen
          rw [hids, ← hcon]
          exact hx
        · simp only [List.length_append, List.length_singleton]
          omega
    · simp only [hcap, if_neg, not_false_iff]
      refine ⟨hinv, ?_, ?_⟩ <;> simp

theorem closest_neighbors_scan_inv :
    ∀ (idxs : List Nat) (t : Table) (cn : ClosestNeighbors), cn.inv →
      (t.closest_neighbors_scan cn idxs).inv
        ∧ (t.closest_neighbors_scan cn idxs).target = cn.target
        ∧ (t.closest_neighbors_scan cn idxs).maximum_capacity = cn.maximum_capacity := by
  intro idxs
  induction idxs with
  | nil =>
    intro t cn hinv
    exact ⟨hinv, rfl, rfl⟩
  | cons i rest ih =>
    intro t cn hinv
    rw [Table.closest_neighbors_scan]
    by_cases hempty : (t.buckets.getD i []).isEmpty
    · simp only [hempty, if_pos]
      exact ih t cn hinv
    · simp only [hempty, if_neg, not_false_iff, Bool.false_eq_true]
      have hadd := add_missing_inv (t.buckets.getD i []) cn hinv
      by_cases hcont : (cn.add_missing (t.buckets.getD i [])).2
      · simp only [hcont, if_pos]
        have hrec := ih t _ hadd.1
        exact ⟨hrec.1, hrec.2.1.trans hadd.2.1, hrec.2.2.trans hadd.2.2⟩
      · simp only [hcont, if_neg, Bool.false_eq_true, not_false_iff]
        exact hadd

theorem sort_ascending_fields (cn : ClosestNeighbors) :
    (cn.sort_ascending_by_distance).target = cn.target
      ∧ (cn.sort_ascending_by_distance).maximum_capacity = cn.maximum_capacity
      ∧ (cn.sort_ascending_by_distance).nodes.Perm cn.nodes := by
  refine ⟨rfl, rfl, ?_⟩
  exact List.mergeSort_perm cn.nodes _

/-- C7: the bucket scan of `closest_neighbors` visits buckets in the order
`b, b+1, b−1, b+2, b−2, …` (skipping out-of-range indices) starting at
`b = differing_bit_position(self_id, target_id)`, and the returned collection
holds at most `n` nodes, with pairwise distinct ids, sorted in ascending XOR
distance from the target id. -/
theorem closest_neighbors_spec :
    (∀ (t : Table) (id : Id),
      t.node_id.differing_bit_position id < t.node_id.id_length_in_bits →
      t.all_adjacent_bucket_indices (t.node_id.differing_bit_position id)
        = specVisitOrder t.node_id.id_length_in_bits (t.node_id.differing_bit_position id))
    ∧ (∀ (t : Table) (id : Id) (n : Nat),
        (t.closest_neighbors id n).nodes.length ≤ n
          ∧ ((t.closest_neighbors id n).nodes.map Node.id).Nodup
          ∧ List.Sorted
              (fun a b : Node => a.id.distance_from id ≤ b.id.distance_from id)
              (t.closest_neighbors id n).nodes) := by
  constructor
  · intro t id hb
    exact all_adjacent_eq_spec t _ hb
  · intro t id n
    have hinv0 : (ClosestNeighbors.new n id).inv := by
      refine ⟨rfl, List.nodup_nil, ?_⟩
      simp [ClosestNeighbors.new]
    have hscan := closest_neighbors_scan_inv
      (t.all_adjacent_bucket_indices (t.node_id.differing_bit_position id)) t
      (ClosestNeighbors.new n id) hinv0
    set sc := t.closest_neighbors_scan (ClosestNeighbors.new n id)
      (t.all_adjacent_bucket_indices (t.node_id.differing_bit_position id)) with hsc
    have hresult : t.closest_neighbors id n = sc.sort_ascending_by_distance := rfl
    have hperm : (sc.sort_ascending_by_distance).nodes.Perm sc.nodes :=
      (sort_ascending_fields sc).2.2
    obtain ⟨⟨hids, hnodup, hlen⟩, htarget, hcap⟩ := hscan
    have hcapn : sc.maximum_capacity = n := by
      rw [hcap]
      rfl
    have htargetid : sc.target = id := by
      rw [htarget]
      rfl
    refine ⟨?_, ?_, ?_⟩
    · rw [hresult]
      calc (sc.sort_ascending_by_distance).nodes.length
          = sc.nodes.length := hperm.length_eq
        _ ≤ n := by omega
    · rw [hresult]
      exact ((hperm.map Node.id).nodup_iff).mpr hnodup
    · rw [hresult]
      have htrans : ∀ a b c : Node,
          distLE sc.target a b → distLE sc.target b c → distLE sc.target a c := by
        intro a b c h1 h2
        simp only [distLE, decide_eq_true_eq] at h1 h2 ⊢
        exact le_trans h1 h2
      have htotal : ∀ a b : Node, distLE sc.target a b || distLE sc.target b a := by
        intro a b
        simp only [distLE, Bool.or_eq_true, decide_eq_true_eq]
        exact Nat.le_total _ _
      have hsorted := List.sorted_mergeSort htrans htotal sc.nodes
      have hnodes : (sc.sort_ascending_by_distance).nodes
          = sc.nodes.mergeSort (distLE sc.target) := rfl
      rw [hnodes]
      refine List.Pairwise.imp ?_ hsorted
      intro a b h
      simp only [distLE, decide_eq_true_eq] at h
      rw [htargetid] at h
      exact h

/-- Witness for C7: the table owned by id `511` over two-byte ids; the target
id `255` differs from the owner at bit position 8, inside the 16 buckets. -/
theorem closest_neighbors_spec_witness :
    (Table.new (Id.new [1, 255])).all_adjacent_bucket_indices
        ((Table.new (Id.new [1, 255])).node_id.differing_bit_position (Id.new [0, 255]))
      = specVisitOrder (Table.new (Id.new [1, 255])).node_id.id_length_in_bits
          ((Table.new (Id.new [1, 255])).node_id.differing_bit_position (Id.new [0, 255]))
      ∧ ((Table.new (Id.new [1, 255])).closest_neighbors (Id.new [0, 255]) 1).nodes.length ≤ 1 :=
  ⟨closest_neighbors_spec.1 (Table.new (Id.new [1, 255])) (Id.new [0, 255]) (by decide),
    (closest_neighbors_spec.2 (Table.new (Id.new [1, 255])) (Id.new [0, 255]) 1).1⟩

/-- C2 counterexample: `find_value_reply_type` accepts a value together with
neighbors — the construction succeeds and the resulting `FindValueReply` has
both fields set at once, so "exactly one" fails. -/
theorem find_value_reply_both_set :
    Message.find_value_reply_type 10 (some [107]) (some [])
        = some (Message.FindValueReply 10 (some [107]) (some []))
      ∧ (some [107] : Option (List Nat)).isSome = true
      ∧ (some ([] : List Source)).isSome = true := by
  exact ⟨rfl, rfl, rfl⟩

/-- C2 amended: construction fails exactly when both `value` and `neighbors`
are `None`, and every constructed `FindValueReply` has at least one of the
two fields set. -/
theorem find_value_reply_at_least_one :
    (∀ (id : MessageId), Message.find_value_reply_type id none none = none)
    ∧ (∀ (id : MessageId) (value : Option (List Nat))
        (neighbors : Option (List Source)) (m : Message),
        Message.find_value_reply_type id value neighbors = some m →
        value.isSome = true ∨ neighbors.isSome = true) := by
  constructor
  · intro id
    rfl
  · intro id value neighbors m h
    unfold Message.find_value_reply_type at h
    by_cases hcond : (value.isSome || neighbors.isSome) = true
    · rcases Bool.or_eq_true_iff.mp hcond with hv | hn
      · exact Or.inl hv
      · exact Or.inr hn
    · rw [if_neg hcond] at h
      exact absurd h (Option.some_ne_none m).symm

/-- Witness for C2 (amended): a reply with only the value set constructs. -/
theorem find_value_reply_at_least_one_witness :
    Message.find_value_reply_type 7 (some [107]) none
        = some (Message.FindValueReply 7 (some [107]) none)
      ∧ ((some [107] : Option (List Nat)).isSome = true
          ∨ (none : Option (List Source)).isSome = true) :=
  ⟨rfl, find_value_reply_at_least_one.2 7 (some [107]) none
    (Message.FindValueReply 7 (some [107]) none) rfl⟩

/-- C3: the worker reply to a `FindNode` message is `FindValueDone`, not the
`FindNodeDone` the spec states — the `FindNode` arm of
`MessageExecutor::start` repeats the `FindValue` arm status. -/
theorem find_node_status_is_find_value_done :
    MessageExecutor.status_for
        (Message.FindNode
          (Source.new (Node.new_with_id (Endpoint.new [104] 9808) (Id.new [0, 255])))
          (some 100) (Id.new [0, 255]))
        = some MessageStatus.FindValueDone
      ∧ (MessageStatus.FindValueDone ≠ MessageStatus.FindNodeDone) := by
  exact ⟨rfl, by decide⟩

/-- C1 counterexample: for a concrete send, the trace of
`send_with_message_id_expect_reply` has the outbound write strictly before the
registration of the assigned id — registration is not in place before the
send returns, contrary to the claim. -/
theorem registration_not_before_send :
    ¬((((AsyncNetwork.new []).send_with_message_id_expect_reply
          (Message.ping_type (Node.new_with_id (Endpoint.new [104] 5665) (Id.new [0, 255])))
          (Endpoint.new [104] 2334) true).2.findIdx (NetEvent.is_registration 1))
        < (((AsyncNetwork.new []).send_with_message_id_expect_reply
          (Message.ping_type (Node.new_with_id (Endpoint.new [104] 5665) (Id.new [0, 255])))
          (Endpoint.new [104] 2334) true).2.findIdx NetEvent.is_write)) := by
  decide

/-- C1 amended: `send_with_message_id_expect_reply` registers the callback
under the freshly assigned id *after* the awaited send completes but before
the call returns, and the registration happens whether or not the send
succeeds; the stored send result is returned unchanged. -/
theorem send_with_message_id_expect_reply_spec :
    ∀ (net : AsyncNetwork) (message : Message) (endpoint : Endpoint) (send_ok : Bool),
      (net.send_with_message_id_expect_reply message endpoint send_ok).2
          = [NetEvent.wrote (message.set_message_id net.next_message_id) endpoint,
             NetEvent.registered net.next_message_id]
        ∧ (net.send_with_message_id_expect_reply message endpoint send_ok).1.2.waiting_list
            = net.waiting_list ++ [net.next_message_id]
        ∧ (net.send_with_message_id_expect_reply message endpoint send_ok).1.1 = send_ok
        ∧ (net.send_with_message_id_expect_reply message endpoint send_ok).1.2.next_message_id
            = net.next_message_id + 1 := by
  intro net message endpoint send_ok
  exact ⟨rfl, rfl, rfl, rfl⟩

theorem remove_and_add_displaces (t : Table) (bucket_index : Nat) (oldest to_add : Node)
    (hrange : bucket_index < t.buckets.length)
    (hold_bi : t.bucket_index oldest.id = bucket_index)
    (hadd_bi : t.bucket_index to_add.id = bucket_index)
    (hold_mem : oldest ∈ t.buckets.getD bucket_index [])
    (hadd_mem : to_add ∉ t.buckets.getD bucket_index [])
    (hnodup : (t.buckets.getD bucket_index []).Nodup)
    (hcap : (t.buckets.getD bucket_index []).length ≤ t.max_bucket_capacity) :
    ((t.remove_and_add bucket_index oldest to_add).contains to_add).2 = true
      ∧ ((t.remove_and_add bucket_index oldest to_add).contains oldest).2 = false := by
  have hcontains_old : (t.contains oldest).2 = true := by
    simp only [Table.contains, hold_bi, decide_eq_true_eq]
    exact hold_mem
  have hcontains_add : (t.contains to_add).2 = false := by
    simp only [Table.contains, hadd_bi, decide_eq_false_iff_not]
    exact hadd_mem
  have hcond : ((t.contains oldest).2 && !(t.contains to_add).2) = true := by
    rw [hcontains_old, hcontains_add]
    rfl
  have hresult : t.remove_and_add bucket_index oldest to_add
      = ((t.withBucket bucket_index
            ((t.buckets.getD bucket_index []).erase oldest)).add_internal
          to_add bucket_index).2 := by
    unfold Table.remove_and_add
    rw [if_pos hcond]
  set nodes := (t.buckets.getD bucket_index []).erase oldest with hnodes
  set removed := t.withBucket bucket_index nodes with hremoved
  have hremoved_len : removed.buckets.length = t.buckets.length := by
    simp [hremoved, Table.withBucket]
  have hremoved_bucket : removed.buckets.getD bucket_index [] = nodes :=
    withBucket_getD_self t bucket_index nodes hrange
  have hlen_nodes : nodes.length = (t.buckets.getD bucket_index []).length - 1 := by
    rw [hnodes]
    exact List.length_erase_of_mem hold_mem
  have hbucket_pos : 0 < (t.buckets.getD bucket_index []).length :=
    List.length_pos_of_mem hold_mem
  have hspace : nodes.length < removed.max_bucket_capacity := by
    have : removed.max_bucket_capacity = t.max_bucket_capacity := rfl
    omega
  have hinternal : (removed.add_internal to_add bucket_index).2
      = removed.withBucket bucket_index (nodes ++ [to_add]) := by
    unfold Table.add_internal
    rw [hremoved_bucket, if_pos hspace]
  have hfinal : t.remove_and_add bucket_index oldest to_add
      = removed.withBucket bucket_index (nodes ++ [to_add]) := by
    rw [hresult, hinternal]
  have hfinal_bucket : (removed.withBucket bucket_index (nodes ++ [to_add])).buckets.getD
      bucket_index [] = nodes ++ [to_add] :=
    withBucket_getD_self removed bucket_index _ (by omega)
  have hold_ne_add : oldest ≠ to_add := by
    intro h
    rw [h] at hold_mem
    exact hadd_mem hold_mem
  constructor
  · rw [hfinal]
    have hbi : (removed.withBucket bucket_index (nodes ++ [to_add])).bucket_index to_add.id
        = bucket_index := by
      have : (removed.withBucket bucket_index (nodes ++ [to_add])).bucket_index to_add.id
          = t.bucket_index to_add.id := rfl
      rw [this, hadd_bi]
    simp only [Table.contains, hbi, hfinal_bucket, decide_eq_true_eq]
    exact List.mem_append_right _ (List.mem_singleton.mpr rfl)
  · rw [hfinal]
    have hbi : (removed.withBucket bucket_index (nodes ++ [to_add])).bucket_index oldest.id
        = bucket_index := by
      have : (removed.withBucket bucket_index (nodes ++ [to_add])).bucket_index oldest.id
          = t.bucket_index oldest.id := rfl
      rw [this, hold_bi]
    simp only [Table.contains, hbi, hfinal_bucket, decide_eq_false_iff_not]
    intro hmem
    rcases List.mem_append.mp hmem with h | h
    · exact (hnodup.not_mem_erase) h
    · exact hold_ne_add (List.mem_singleton.mp h)

/-- C8: when `AddNode` processing finds the bucket full (source node absent,
bucket at capacity) and the bucket has an oldest node, a failed probe (send
error or timeout/`Err` status) makes the new node displace the oldest via
`remove_and_add`, while an `Ok` probe keeps the incumbent and discards the
new node. -/
theorem add_node_action_spec :
    ∀ (t : Table) (source : Source) (oldest : Node) (outcome : ProbeOutcome),
      source.to_node ∉ t.buckets.getD (t.bucket_index source.to_node.id) [] →
      ¬(t.buckets.getD (t.bucket_index source.to_node.id) []).length
          < t.max_bucket_capacity →
      (t.buckets.getD (t.bucket_index source.to_node.id) []).length
          ≤ t.max_bucket_capacity →
      t.bucket_index source.to_node.id < t.buckets.length →
      (t.buckets.getD (t.bucket_index source.to_node.id) []).Nodup →
      t.first_node_in (t.bucket_index source.to_node.id) = some oldest →
      t.bucket_index oldest.id = t.bucket_index source.to_node.id →
      ((outcome = ProbeOutcome.sendFailed
          ∨ outcome = ProbeOutcome.replied ResponseStatus.Err →
        ((AddNodeAction.act_on t source outcome).contains source.to_node).2 = true
          ∧ ((AddNodeAction.act_on t source outcome).contains oldest).2 = false)
        ∧ AddNodeAction.act_on t source (ProbeOutcome.replied ResponseStatus.Ok) = t) := by
  intro t source oldest outcome hmem hfull hcap hrange hnodup hfirst hold_bi
  have hadd := add_eq_of_present_or_full t source.to_node (Or.inr hfull)
  have hold_mem : oldest ∈ t.buckets.getD (t.bucket_index source.to_node.id) [] := by
    unfold Table.first_node_in at hfirst
    cases hb : t.buckets.getD (t.bucket_index source.to_node.id) [] with
    | nil => rw [hb] at hfirst; simp at hfirst
    | cons head tail =>
      rw [hb] at hfirst
      simp only [List.head?_cons, Option.some.injEq] at hfirst
      rw [hfirst]
      exact List.mem_cons_self oldest tail
  have hdisplace := remove_and_add_displaces t (t.bucket_index source.to_node.id)
    oldest source.to_node hrange hold_bi rfl hold_mem hmem hnodup hcap
  constructor
  · intro houtcome
    have hact : AddNodeAction.act_on t source outcome
        = t.remove_and_add (t.bucket_index source.to_node.id) oldest source.to_node := by
      unfold AddNodeAction.act_on
      rw [hadd]
      simp only [Bool.false_eq_true, if_neg, not_false_iff]
      rw [hfirst]
      rcases houtcome with h | h <;> rw [h]
    rw [hact]
    exact hdisplace
  · have hact : AddNodeAction.act_on t source (ProbeOutcome.replied ResponseStatus.Ok) = t := by
      unfold AddNodeAction.act_on
      rw [hadd]
      simp only [Bool.false_eq_true, if_neg, not_false_iff]
      rw [hfirst]
    exact hact

/-- Witness for C8: with the bucket full, a failed probe displaces the
incumbent with the new node, and an `Ok` probe leaves the table unchanged. -/
theorem add_node_action_spec_witness :
    ((AddNodeAction.act_on witness_table witness_source ProbeOutcome.sendFailed).contains
        witness_source.to_node).2 = true
      ∧ ((AddNodeAction.act_on witness_table witness_source ProbeOutcome.sendFailed).contains
          witness_oldest).2 = false
      ∧ AddNodeAction.act_on witness_table witness_source
          (ProbeOutcome.replied ResponseStatus.Ok) = witness_table :=
  have h := add_node_action_spec witness_table witness_source witness_oldest
    ProbeOutcome.sendFailed (by decide) (by decide) (by decide) (by decide) (by decide)
    (by decide) (by decide)
  ⟨(h.1 (Or.inl rfl)).1, (h.1 (Or.inl rfl)).2, h.2⟩

theorem keysOf_eraseP (s : WaitState) (id : MessageId) :
    keysOf (s.eraseP (fun entry => entry.1 == id)) = (keysOf s).erase id := by
  induction s with
  | nil => rfl
  | cons e rest ih =>
    by_cases h : e.1 = id
    · simp [keysOf, List.eraseP_cons, List.erase_cons, h]
    · have hb : (e.1 == id) = false := by
        simp [h]
      have ih' : List.map Prod.fst (List.eraseP (fun entry => entry.1 == id) rest)
          = (List.map Prod.fst rest).erase id := ih
      simp [keysOf, List.eraseP_cons, List.erase_cons, hb, ih']

theorem handle_response_unknown (s : WaitState) (message_id : MessageId)
    (h : message_id ∉ keysOf s) :
    WaitingList.handle_response s message_id = (s, []) := by
  have hfind : s.find? (fun entry => entry.1 == message_id) = none := by
    rw [List.find?_eq_none]
    intro e he
    simp only [beq_iff_eq]
    intro hcon
    exact h (hcon ▸ List.mem_map_of_mem Prod.fst he)
  unfold WaitingList.handle_response
  rw [hfind]

theorem handle_response_known (s : WaitState) (message_id : MessageId)
    (h : message_id ∈ keysOf s) :
    (WaitingList.handle_response s message_id).2 = [message_id]
      ∧ keysOf (WaitingList.handle_response s message_id).1 = (keysOf s).erase message_id := by
  obtain ⟨e, he, hfst⟩ := List.mem_map.mp h
  have hfind : (s.find? (fun entry => entry.1 == message_id)).isSome := by
    rw [List.find?_isSome]
    exact ⟨e, he, by simp [hfst]⟩
  unfold WaitingList.handle_response
  cases hf : s.find? (fun entry => entry.1 == message_id) with
  | none => rw [hf] at hfind; simp at hfind
  | some entry =>
    exact ⟨rfl, keysOf_eraseP s message_id⟩

theorem handle_response_step (s : WaitState) (id : MessageId)
    (hnodup : (keysOf s).Nodup) :
    (WaitingList.handle_response s id).2.Nodup
      ∧ (∀ x ∈ (WaitingList.handle_response s id).2, x ∈ keysOf s)
      ∧ (keysOf (WaitingList.handle_response s id).1).Nodup
      ∧ (∀ x ∈ (WaitingList.handle_response s id).2,
          x ∉ keysOf (WaitingList.handle_response s id).1)
      ∧ (∀ x ∈ keysOf (WaitingList.handle_response s id).1, x ∈ keysOf s) := by
  by_cases h : id ∈ keysOf s
  · obtain ⟨hinv, hkeys⟩ := handle_response_known s id h
    rw [hinv, hkeys]
    refine ⟨List.nodup_singleton id, ?_, hnodup.erase id, ?_, ?_⟩
    · intro x hx
      rw [List.mem_singleton.mp hx]
      exact h
    · intro x hx
      rw [List.mem_singleton.mp hx]
      exact hnodup.not_mem_erase
    · intro x hx
      exact List.mem_of_mem_erase hx
  · rw [handle_response_unknown s id h]
    refine ⟨List.nodup_nil, ?_, hnodup, ?_, fun x hx => hx⟩
    · intro x hx
      exact absurd hx (List.not_mem_nil x)
    · intro x hx
      exact fun _ => absurd hx (List.not_mem_nil x)

theorem clean_step (s : WaitState) (now expiry_after : Nat)
    (hnodup : (keysOf s).Nodup) :
    (ExpiredPendingResponsesCleaner.clean s now expiry_after).2.Nodup
      ∧ (∀ x ∈ (ExpiredPendingResponsesCleaner.clean s now expiry_after).2, x ∈ keysOf s)
      ∧ (keysOf (ExpiredPendingResponsesCleaner.clean s now expiry_after).1).Nodup
      ∧ (∀ x ∈ (ExpiredPendingResponsesCleaner.clean s now expiry_after).2,
          x ∉ keysOf (ExpiredPendingResponsesCleaner.clean s now expiry_after).1)
      ∧ (∀ x ∈ keysOf (ExpiredPendingResponsesCleaner.clean s now expiry_after).1,
          x ∈ keysOf s) := by
  have hsub1 : ((s.filter
      (fun entry => TimedCallback.has_expired entry.2 now expiry_after)).map
        Prod.fst).Sublist (keysOf s) :=
    (List.filter_sublist s).map Prod.fst
  have hsub2 : ((s.filter
      (fun entry => !TimedCallback.has_expired entry.2 now expiry_after)).map
        Prod.fst).Sublist (keysOf s) :=
    (List.filter_sublist s).map Prod.fst
  have hinj := List.inj_on_of_nodup_map
    (show ((s.map Prod.fst).Nodup) from hnodup)
  refine ⟨hnodup.sublist hsub1, ?_, hnodup.sublist hsub2, ?_, ?_⟩
  · intro x hx
    exact hsub1.mem hx
  · intro x hx hx'
    have hx2 : x ∈ (s.filter
        (fun entry => TimedCallback.has_expired entry.2 now expiry_after)).map Prod.fst := hx
    have hx2' : x ∈ (s.filter
        (fun entry => !TimedCallback.has_expired entry.2 now expiry_after)).map Prod.fst := hx'
    obtain ⟨e, he, hefst⟩ := List.mem_map.mp hx2
    obtain ⟨e', he', hefst'⟩ := List.mem_map.mp hx2'
    have hee : e = e' :=
      hinj (List.mem_of_mem_filter he) (List.mem_of_mem_filter he')
        (hefst.trans hefst'.symm)
    have hpe : TimedCallback.has_expired e.2 now expiry_after = true :=
      (List.mem_filter.mp he).2
    have hpe' : (!TimedCallback.has_expired e'.2 now expiry_after) = true :=
      (List.mem_filter.mp he').2
    rw [← hee, hpe] at hpe'
    exact absurd hpe' (by decide)
  · intro x hx
    exact hsub2.mem hx

theorem run_spec (expiry_after : Nat) :
    ∀ (ops : List WaitOp) (s : WaitState), (keysOf s).Nodup →
      ((WaitingList.run expiry_after s ops).2.Nodup
        ∧ (∀ x ∈ (WaitingList.run expiry_after s ops).2, x ∈ keysOf s)
        ∧ (keysOf (WaitingList.run expiry_after s ops).1).Nodup) := by
  intro ops
  induction ops with
  | nil =>
    intro s hnodup
    exact ⟨List.nodup_nil, fun x hx => absurd hx (List.not_mem_nil x), hnodup⟩
  | cons op rest ih =>
    intro s hnodup
    have hstep :
        (WaitingList.step expiry_after s op).2.Nodup
        ∧ (∀ x ∈ (WaitingList.step expiry_after s op).2, x ∈ keysOf s)
        ∧ (keysOf (WaitingList.step expiry_after s op).1).Nodup
        ∧ (∀ x ∈ (WaitingList.step expiry_after s op).2,
            x ∉ keysOf (WaitingList.step expiry_after s op).1)
        ∧ (∀ x ∈ keysOf (WaitingList.step expiry_after s op).1, x ∈ keysOf s) := by
      cases op with
      | handleResponse id => exact handle_response_step s id hnodup
      | clean now => exact clean_step s now expiry_after hnodup
    obtain ⟨hsn, hss, hkn, hdisj, hks⟩ := hstep
    have hrec := ih _ hkn
    have hrun : WaitingList.run expiry_after s (op :: rest)
        = ((WaitingList.run expiry_after (WaitingList.step expiry_after s op).1 rest).1,
           (WaitingList.step expiry_after s op).2
             ++ (WaitingList.run expiry_after (WaitingList.step expiry_after s op).1 rest).2) :=
      rfl
    rw [hrun]
    refine ⟨?_, ?_, hrec.2.2⟩
    · rw [List.nodup_append]
      refine ⟨hsn, hrec.1, ?_⟩
      intro x hx hx'
      exact hdisj x hx (hrec.2.1 x hx')
    · intro x hx
      rcases List.mem_append.mp hx with h | h
      · exact hss x h
      · exact hks x (hrec.2.1 x h)

/-- C9: a registered message id is resolved at most once — across any
sequence of reply deliveries and sweeper passes the list of callback
invocations has no duplicate id, and only pending ids are ever invoked —
because `handle_response` removes the entry as it invokes and the sweeper
drops what it times out; and `handle_response` for an id with no entry
invokes nothing and leaves the state unchanged. -/
theorem waiting_list_resolve_once :
    (∀ (s : WaitState) (message_id : MessageId),
      message_id ∉ keysOf s →
      WaitingList.handle_response s message_id = (s, []))
    ∧ (∀ (expiry_after : Nat) (s : WaitState) (ops : List WaitOp),
        (keysOf s).Nodup →
        ((WaitingList.run expiry_after s ops).2.Nodup
          ∧ ∀ x ∈ (WaitingList.run expiry_after s ops).2, x ∈ keysOf s)) := by
  constructor
  · exact handle_response_unknown
  · intro expiry_after s ops hnodup
    have h := run_spec expiry_after ops s hnodup
    exact ⟨h.1, h.2.1⟩

/-- Witness for C9: a reply for the unregistered id 20 changes nothing, and a
reply for id 1 followed by a sweep at instant 200 (expiry 120) invokes each
of the two pending ids at most once. -/
theorem waiting_list_resolve_once_witness :
    WaitingList.handle_response [((10 : MessageId), 0)] 20 = ([((10 : MessageId), 0)], [])
      ∧ ((WaitingList.run 120 [((1 : MessageId), 0), ((2 : MessageId), 5)]
            [WaitOp.handleResponse 1, WaitOp.clean 200]).2.Nodup
          ∧ ∀ x ∈ (WaitingList.run 120 [((1 : MessageId), 0), ((2 : MessageId), 5)]
              [WaitOp.handleResponse 1, WaitOp.clean 200]).2,
            x ∈ keysOf [((1 : MessageId), 0), ((2 : MessageId), 5)]) :=
  ⟨waiting_list_resolve_once.1 [((10 : MessageId), 0)] 20 (by decide),
    waiting_list_resolve_once.2 120 [((1 : MessageId), 0), ((2 : MessageId), 5)]
      [WaitOp.handleResponse 1, WaitOp.clean 200] (by decide)⟩

theorem natToLEBytes_length (width n : Nat) : (natToLEBytes width n).length = width := by
  induction width generalizing n with
  | zero => rfl
  | succ w ih => simp [natToLEBytes, ih]

theorem leBytesToNat_cons (b : Nat) (rest : List Nat) :
    leBytesToNat (b :: rest) = leBytesToNat rest * 256 + b := rfl

theorem leBytes_roundtrip (width n : Nat) :
    leBytesToNat (natToLEBytes width n) = n % 256 ^ width := by
  induction width generalizing n with
  | zero => simp [natToLEBytes, leBytesToNat, Nat.mod_one]
  | succ w ih =>
    rw [natToLEBytes, leBytesToNat_cons, ih]
    have hmul : n % (256 * 256 ^ w) = n % 256 + 256 * (n / 256 % 256 ^ w) :=
      Nat.mod_mul
    have hpow : (256 : Nat) ^ (w + 1) = 256 * 256 ^ w := by
      rw [pow_succ]
      ring
    rw [hpow]
    omega

theorem readBytes_append (l r : List Nat) :
    readBytes l.length (l ++ r) = some (l, r) := by
  unfold readBytes
  rw [if_pos (by simp)]
  rw [List.take_left, List.drop_left]

theorem readBytes_natToLE (w n : Nat) (r : List Nat) :
    readBytes w (natToLEBytes w n ++ r) = some (natToLEBytes w n, r) := by
  have h := readBytes_append (natToLEBytes w n) r
  rwa [natToLEBytes_length] at h

theorem readU64_append (n : Nat) (r : List Nat) (h : n < 2 ^ 64) :
    readU64 (encodeU64 n ++ r) = some (n, r) := by
  unfold readU64 encodeU64
  rw [readBytes_natToLE]
  simp only [Option.map_some']
  rw [leBytes_roundtrip]
  have h8 : (256 : Nat) ^ 8 = 2 ^ 64 := by norm_num
  rw [h8, Nat.mod_eq_of_lt h]

theorem readU32_append (n : Nat) (r : List Nat) (h : n < 2 ^ 32) :
    readU32 (encodeU32 n ++ r) = some (n, r) := by
  unfold readU32 encodeU32
  rw [readBytes_natToLE]
  simp only [Option.map_some']
  rw [leBytes_roundtrip]
  have h4 : (256 : Nat) ^ 4 = 2 ^ 32 := by norm_num
  rw [h4, Nat.mod_eq_of_lt h]

theorem readU16_append (n : Nat) (r : List Nat) (h : n < 2 ^ 16) :
    readU16 (encodeU16 n ++ r) = some (n, r) := by
  unfold readU16 encodeU16
  rw [readBytes_natToLE]
  simp only [Option.map_some']
  rw [leBytes_roundtrip]
  have h2 : (256 : Nat) ^ 2 = 2 ^ 16 := by norm_num
  rw [h2, Nat.mod_eq_of_lt h]

theorem readI64_append (i : Int) (r : List Nat)
    (h1 : -(2 ^ 63) ≤ i) (h2 : i < 2 ^ 63) :
    readI64 (encodeI64 i ++ r) = some (i, r) := by
  unfold readI64 encodeI64
  rw [readBytes_natToLE]
  simp only [Option.map_some']
  rw [leBytes_roundtrip]
  have hnonneg : (0 : Int) ≤ i % (2 ^ 64 : Int) :=
    Int.emod_nonneg i (by norm_num)
  have hlt : i % (2 ^ 64 : Int) < 2 ^ 64 :=
    Int.emod_lt_of_pos i (by norm_num)
  have hcast : ((i % (2 ^ 64 : Int)).toNat : Int) = i % (2 ^ 64 : Int) :=
    Int.toNat_of_nonneg hnonneg
  have hm : (i % (2 ^ 64 : Int)).toNat < 2 ^ 64 := by omega
  have h8 : (256 : Nat) ^ 8 = 2 ^ 64 := by norm_num
  rw [h8, Nat.mod_eq_of_lt hm]
  have hgoal : (if (i % (2 ^ 64 : Int)).toNat < 2 ^ 63
      then ((i % (2 ^ 64 : Int)).toNat : Int)
      else ((i % (2 ^ 64 : Int)).toNat : Int) - 2 ^ 64) = i := by
    by_cases hc : (i % (2 ^ 64 : Int)).toNat < 2 ^ 63
    · rw [if_pos hc, hcast]
      omega
    · rw [if_neg hc, hcast]
      omega
  rw [hgoal]

theorem readVec_append (v : List Nat) (r : List Nat) (h : v.length < 2 ^ 64) :
    readVec (encodeBytes v ++ r) = some (v, r) := by
  unfold readVec encodeBytes
  rw [List.append_assoc, readU64_append v.length (v ++ r) h]
  simp only [Option.bind_eq_bind, Option.some_bind]
  exact readBytes_append v r

theorem readEndpoint_append (e : Endpoint) (r : List Nat) (h : EndpointWireSized e) :
    readEndpoint (encodeEndpoint e ++ r) = some (e, r) := by
  obtain ⟨hhost, hport⟩ := h
  unfold readEndpoint encodeEndpoint
  rw [List.append_assoc, readVec_append e.host _ hhost]
  simp only [Option.bind_eq_bind, Option.some_bind]
  rw [readU16_append e.port r hport]
  rfl

theorem readId_append (i : Id) (r : List Nat) (h : IdWireSized i) :
    readId (encodeId i ++ r) = some (i, r) := by
  obtain ⟨hbytes, hbits⟩ := h
  unfold readId encodeId
  rw [List.append_assoc, readVec_append i.id _ hbytes]
  simp only [Option.bind_eq_bind, Option.some_bind]
  rw [readU64_append i.id_length_in_bits r hbits]
  rfl

theorem readSource_append (s : Source) (r : List Nat) (h : SourceWireSized s) :
    readSource (encodeSource s ++ r) = some (s, r) := by
  obtain ⟨hend, hid⟩ := h
  unfold readSource encodeSource
  rw [List.append_assoc, readEndpoint_append s.node_endpoint _ hend]
  simp only [Option.bind_eq_bind, Option.some_bind]
  rw [readId_append s.node_id r hid]
  rfl

theorem readSourceList_append (ns : List Source) (r : List Nat)
    (h : ∀ s ∈ ns, SourceWireSized s) :
    readSourceList ns.length (ns.flatMap encodeSource ++ r) = some (ns, r) := by
  induction ns with
  | nil => rfl
  | cons s rest ih =>
    rw [List.length_cons, List.flatMap_cons, List.append_assoc]
    rw [readSourceList]
    rw [readSource_append s _ (h s (List.mem_cons_self s rest))]
    simp only [Option.bind_eq_bind, Option.some_bind]
    rw [ih (fun x hx => h x (List.mem_cons_of_mem s hx))]
    rfl

theorem readSources_append (ns : List Source) (r : List Nat)
    (hlen : ns.length < 2 ^ 64) (h : ∀ s ∈ ns, SourceWireSized s) :
    readSources (encodeSources ns ++ r) = some (ns, r) := by
  unfold readSources encodeSources
  rw [List.append_assoc, readU64_append ns.length _ hlen]
  simp only [Option.bind_eq_bind, Option.some_bind]
  exact readSourceList_append ns r h

theorem readOption_none {α : Type} (dec : List Nat → Option (α × List Nat))
    (enc : α → List Nat) (r : List Nat) :
    readOptionWith dec (encodeOptionWith enc none ++ r) = some (none, r) := rfl

theorem readOption_some {α : Type} (dec : List Nat → Option (α × List Nat))
    (enc : α → List Nat) (a : α) (r : List Nat)
    (h : dec (enc a ++ r) = some (a, r)) :
    readOptionWith dec (encodeOptionWith enc (some a) ++ r) = some (some a, r) := by
  show readOptionWith dec (1 :: (enc a ++ r)) = some (some a, r)
  rw [readOptionWith, h]
  rfl

theorem deserialize_serialize_body (m : Message) :
    Message.deserialize_from (Message.serialize m) = decodeBody (encodeBody m) := by
  unfold Message.deserialize_from Message.serialize
  have hlen : (natToBEBytes 4 (encodeBody m).length).length = 4 := by
    unfold natToBEBytes
    rw [List.length_reverse, natToLEBytes_length]
  have hdrop := List.drop_left (natToBEBytes 4 (encodeBody m).length) (encodeBody m)
  rw [hlen] at hdrop
  rw [hdrop]

/-- C5: the wire frame is a 4-byte big-endian length prefix followed by the
serialized body; `deserialize_from` skips the prefix and decodes the body, and
for every message variant within the machine widths of the Rust types,
`deserialize_from (serialize m) = m`. -/
theorem serialize_roundtrip :
    ∀ (m : Message), WireSized m →
      Message.deserialize_from (Message.serialize m) = some m
        ∧ Message.serialize m
            = natToBEBytes 4 (encodeBody m).length ++ encodeBody m
        ∧ (natToBEBytes 4 (encodeBody m).length).length = 4 := by
  intro m hw
  refine ⟨?_, rfl, by rw [natToBEBytes, List.length_reverse, natToLEBytes_length]⟩
  rw [deserialize_serialize_body]
  cases m with
  | Store key key_id value source =>
    obtain ⟨hkey, hkid, hvalue, hsource⟩ := hw
    show decodeBody (encodeU32 0 ++ encodeBytes key ++ encodeId key_id
      ++ encodeBytes value ++ encodeSource source) = _
    rw [List.append_assoc, List.append_assoc, List.append_assoc]
    unfold decodeBody
    rw [readU32_append 0 _ (by norm_num)]
    simp only [Option.bind_eq_bind, Option.some_bind]
    rw [readVec_append key _ hkey]
    simp only [Option.bind_eq_bind, Option.some_bind]
    rw [readId_append key_id _ hkid]
    simp only [Option.bind_eq_bind, Option.some_bind]
    rw [readVec_append value _ hvalue]
    simp only [Option.bind_eq_bind, Option.some_bind]
    rw [show encodeSource source = encodeSource source ++ [] from
      (List.append_nil _).symm, readSource_append source [] hsource]
    rfl
  | AddNode source =>
    have hsource := hw
    show decodeBody (encodeU32 1 ++ encodeSource source) = _
    unfold decodeBody
    rw [readU32_append 1 _ (by norm_num)]
    simp only [Option.bind_eq_bind, Option.some_bind]
    rw [show encodeSource source = encodeSource source ++ [] from
      (List.append_nil _).symm, readSource_append source [] hsource]
    rfl
  | FindValue source message_id key key_id =>
    obtain ⟨hsource, hmid, hkey, hkid⟩ := hw
    show decodeBody (encodeU32 2 ++ encodeSource source
      ++ encodeOptionWith encodeI64 message_id ++ encodeBytes key ++ encodeId key_id) = _
    rw [List.append_assoc, List.append_assoc, List.append_assoc]
    unfold decodeBody
    rw [readU32_append 2 _ (by norm_num)]
    simp only [Option.bind_eq_bind, Option.some_bind]
    rw [readSource_append source _ hsource]
    simp only [Option.bind_eq_bind, Option.some_bind]
    have hopt : readOptionWith readI64
        (encodeOptionWith encodeI64 message_id ++ (encodeBytes key ++ encodeId key_id))
        = some (message_id, encodeBytes key ++ encodeId key_id) := by
      cases message_id with
      | none => exact readOption_none readI64 encodeI64 _
      | some i =>
        exact readOption_some readI64 encodeI64 i _
          (readI64_append i _ (hmid i rfl).1 (hmid i rfl).2)
    rw [hopt]
    simp only [Option.bind_eq_bind, Option.some_bind]
    rw [readVec_append key _ hkey]
    simp only [Option.bind_eq_bind, Option.some_bind]
    rw [show encodeId key_id = encodeId key_id ++ [] from
      (List.append_nil _).symm, readId_append key_id [] hkid]
    rfl
  | FindValueReply message_id value neighbors =>
    obtain ⟨hmid, hvalue, hns⟩ := hw
    show decodeBody (encodeU32 3 ++ encodeI64 message_id
      ++ encodeOptionWith encodeBytes value
      ++ encodeOptionWith encodeSources neighbors) = _
    rw [List.append_assoc, List.append_assoc]
    unfold decodeBody
    rw [readU32_append 3 _ (by norm_num)]
    simp only [Option.bind_eq_bind, Option.some_bind]
    rw [readI64_append message_id _ hmid.1 hmid.2]
    simp only [Option.bind_eq_bind, Option.some_bind]
    have hopt : readOptionWith readVec
        (encodeOptionWith encodeBytes value ++ encodeOptionWith encodeSources neighbors)
        = some (value, encodeOptionWith encodeSources neighbors) := by
      cases value with
      | none => exact readOption_none readVec encodeBytes _
      | some v =>
        exact readOption_some readVec encodeBytes v _
          (readVec_append v _ (hvalue v rfl))
    rw [hopt]
    simp only [Option.bind_eq_bind, Option.some_bind]
    have hopt2 : readOptionWith readSources
        (encodeOptionWith encodeSources neighbors ++ [])
        = some (neighbors, []) := by
      cases neighbors with
      | none => exact readOption_none readSources encodeSources []
      | some ns =>
        exact readOption_some readSources encodeSources ns []
          (readSources_append ns [] (hns ns rfl).1 (hns ns rfl).2)
    rw [show encodeOptionWith encodeSources neighbors
      = encodeOptionWith encodeSources neighbors ++ [] from
      (List.append_nil _).symm, hopt2]
    rfl
  | FindNode source message_id node_id =>
    obtain ⟨hsource, hmid, hnid⟩ := hw
    show decodeBody (encodeU32 4 ++ encodeSource source
      ++ encodeOptionWith encodeI64 message_id ++ encodeId node_id) = _
    rw [List.append_assoc, List.append_assoc]
    unfold decodeBody
    rw [readU32_append 4 _ (by norm_num)]
    simp only [Option.bind_eq_bind, Option.some_bind]
    rw [readSource_append source _ hsource]
    simp only [Option.bind_eq_bind, Option.some_bind]
    have hopt : readOptionWith readI64
        (encodeOptionWith encodeI64 message_id ++ encodeId node_id)
        = some (message_id, encodeId node_id) := by
      cases message_id with
      | none => exact readOption_none readI64 encodeI64 _
      | some i =>
        exact readOption_some readI64 encodeI64 i _
          (readI64_append i _ (hmid i rfl).1 (hmid i rfl).2)
    rw [hopt]
    simp only [Option.bind_eq_bind, Option.some_bind]
    rw [show encodeId node_id = encodeId node_id ++ [] from
      (List.append_nil _).symm, readId_append node_id [] hnid]
    rfl
  | FindNodeReply message_id neighbors =>
    obtain ⟨hmid, hlen, hns⟩ := hw
    show decodeBody (encodeU32 5 ++ encodeI64 message_id ++ encodeSources neighbors) = _
    rw [List.append_assoc]
    unfold decodeBody
    rw [readU32_append 5 _ (by norm_num)]
    simp only [Option.bind_eq_bind, Option.some_bind]
    rw [readI64_append message_id _ hmid.1 hmid.2]
    simp only [Option.bind_eq_bind, Option.some_bind]
    rw [show encodeSources neighbors = encodeSources neighbors ++ [] from
      (List.append_nil _).symm, readSources_append neighbors [] hlen hns]
    rfl
  | Ping message_id from_node =>
    obtain ⟨hmid, hsource⟩ := hw
    show decodeBody (encodeU32 6 ++ encodeOptionWith encodeI64 message_id
      ++ encodeSource from_node) = _
    rw [List.append_assoc]
    unfold decodeBody
    rw [readU32_append 6 _ (by norm_num)]
    simp only [Option.bind_eq_bind, Option.some_bind]
    have hopt : readOptionWith readI64
        (encodeOptionWith encodeI64 message_id ++ encodeSource from_node)
        = some (message_id, encodeSource from_node) := by
      cases message_id with
      | none => exact readOption_none readI64 encodeI64 _
      | some i =>
        exact readOption_some readI64 encodeI64 i _
          (readI64_append i _ (hmid i rfl).1 (hmid i rfl).2)
    rw [hopt]
    simp only [Option.bind_eq_bind, Option.some_bind]
    rw [show encodeSource from_node = encodeSource from_node ++ [] from
      (List.append_nil _).symm, readSource_append from_node [] hsource]
    rfl
  | PingReply message_id to_peer =>
    obtain ⟨hmid, hsource⟩ := hw
    show decodeBody (encodeU32 7 ++ encodeI64 message_id ++ encodeSource to_peer) = _
    rw [List.append_assoc]
    unfold decodeBody
    rw [readU32_append 7 _ (by norm_num)]
    simp only [Option.bind_eq_bind, Option.some_bind]
    rw [readI64_append message_id _ hmid.1 hmid.2]
    simp only [Option.bind_eq_bind, Option.some_bind]
    rw [show encodeSource to_peer = encodeSource to_peer ++ [] from
      (List.append_nil _).symm, readSource_append to_peer [] hsource]
    rfl
  | ShutDown =>
    show decodeBody (encodeU32 8) = _
    rw [show encodeU32 8 = encodeU32 8 ++ [] from (List.append_nil _).symm]
    unfold decodeBody
    rw [readU32_append 8 _ (by norm_num)]
    rfl

/-- Witness for C5: a concrete `Ping` message with message id 10 round-trips
through the framed codec. -/
theorem serialize_roundtrip_witness :
    Message.deserialize_from (Message.serialize
        (Message.Ping (some 10)
          { node_endpoint := Endpoint.new [108] 5665, node_id := Id.new [0, 255] }))
      = some (Message.Ping (some 10)
          { node_endpoint := Endpoint.new [108] 5665, node_id := Id.new [0, 255] }) :=
  (serialize_roundtrip
    (Message.Ping (some 10)
      { node_endpoint := Endpoint.new [108] 5665, node_id := Id.new [0, 255] })
    (by constructor
        · intro i hi
          cases hi
          exact ⟨by decide, by decide⟩
        · exact ⟨⟨by decide, by decide⟩, by decide, by decide⟩)).1

end Kademlia
